import Mathlib

/-!
Verification of the trade-visualization reconciliation engine
(`src/utils/parser.ts`, second — more complete — pipeline: `parseTradeBlotter`,
`consolidateArgxTrades`, `parseHistorySheet`, `simulatePortfolio`,
`finalizePositions`, `parseTradeData`).

Modelling conventions:
* JavaScript numbers are modelled as exact rationals (`ℚ`).  All the arithmetic
  exercised by the theorems below is exact in IEEE doubles as well
  (small integers and halves), so the rational model is faithful on those inputs.
  Division by zero in `ℚ` is `0` (JS would give `Infinity`/`NaN`); no theorem
  below depends on a division-by-zero result.
* JS objects used as string-keyed maps (`Record<string, T>`) are modelled as
  association lists `List (κ × α)`: lookup scans for the key, updates keep the
  original entry position, fresh keys are appended, and iteration
  (`Object.keys`/`Object.values`) is list order — matching JS insertion-order
  semantics for non-index string keys (all keys used by the engine are tickers
  or ISO dates).
* Dates travel as ISO `YYYY-MM-DD` strings produced by `parseExcelDate`.
  That function (JS `Date` parsing) is modelled at the boundary: a raw date
  cell is `RawDate.iso s` when JS would format it to the ISO string `s`,
  `RawDate.bad` when `new Date(...)` yields an invalid date, and
  `RawDate.missing` when the cell is absent/falsy.  Sorting by
  `new Date(a).getTime()` coincides with lexicographic order on equal-length
  ISO strings; for the empty-string sentinel (`getTime()` is `NaN`) the JS
  comparator returns `NaN` (treated as equal), so order-sensitive theorems
  about the timeline either assume all dates parse or use singleton lists,
  where both semantics agree.
* `Math.random().toString()` (the fallback trade identifier) is modelled by an
  explicit parameter `rnd : Nat → String` giving the value drawn for each raw
  row index; theorems quantify over it.
* String cells for numeric fields (`parseFinancialNumber` on strings,
  `parseFloat`) are not exercised by any claim; raw rows carry the numeric
  value of the cell directly, which matches `parseFinancialNumber` on
  number-typed cells.
-/

namespace TradeViz

/-- Fixed EUR to USD conversion rate (`const EUR_TO_USD = 1.17`). -/
def EUR_TO_USD : ℚ := 117 / 100

/-- Lot epsilon `0.000001` used to discard consumed lots. -/
def epsLot : ℚ := 1 / 1000000

/-- Share epsilon `0.00001` used for the currently-held test. -/
def epsHeld : ℚ := 1 / 100000

/-- Market-value epsilon `0.01` used by the history first/last-seen test. -/
def epsMv : ℚ := 1 / 100

/-- Canonical `Trade` record (`types/trade.ts`). -/
structure Trade where
  tradeId : String
  description : String
  ticker : String
  tradeDate : String
  txnType : String
  quantity : ℚ
  price : ℚ
  currency : String
  netProceeds : ℚ
  fees : ℚ
  commissions : ℚ
  deriving DecidableEq, Repr, Inhabited

/-- `TaxLot` (`parser.ts`): one acquisition batch for HIFO accounting. -/
structure TaxLot where
  date : String
  shares : ℚ
  costPerShare : ℚ
  totalCost : ℚ
  deriving DecidableEq, Repr, Inhabited

/-- One entry of `currentHoldings`: `{ shares, price }`. -/
structure Holding where
  shares : ℚ
  price : ℚ
  deriving DecidableEq, Repr

/-- `PositionHistoryPoint` (`types/trade.ts`). -/
structure PositionHistoryPoint where
  date : String
  price : ℚ
  shares : ℚ
  avgCostBasis : ℚ
  realizedPnL : ℚ
  unrealizedPnL : ℚ
  totalPnL : ℚ
  deriving DecidableEq, Repr

/-- `PortfolioState` (`types/trade.ts`): one snapshot per simulated date. -/
structure PortfolioState where
  date : String
  holdings : List (String × Holding)
  cash : ℚ
  aum : ℚ
  deriving DecidableEq, Repr

/-- Per-ticker transient simulation state (`positionStates` record fields). -/
structure PosState where
  shares : ℚ
  lots : List TaxLot
  realizedPnL : ℚ
  history : List PositionHistoryPoint
  sumSizePercentAUM : ℚ
  daysPresent : ℕ
  maxSizePercentAUM : ℚ
  deriving DecidableEq, Repr, Inhabited

/-- Finalized `Position` (`types/trade.ts`). -/
structure Position where
  ticker : String
  shares : ℚ
  averageCost : ℚ
  realizedPnL : ℚ
  unrealizedPnL : ℚ
  totalPnL : ℚ
  maxSizePercentAUM : ℚ
  avgSizePercentAUM : ℚ
  isSmallPosition : Bool
  trades : List Trade
  history : List PositionHistoryPoint
  deriving DecidableEq, Repr

/-- Running mutable state of `simulatePortfolio`. -/
structure SimState where
  portfolioHistory : List PortfolioState
  positionStates : List (String × PosState)
  currentCash : ℚ
  currentHoldings : List (String × Holding)
  deriving DecidableEq, Repr

/-! ### Association-list map helpers (JS `Record` semantics) -/

/-- `m[k]` : first entry with the key, if any. -/
def mapGet {κ α : Type} [DecidableEq κ] (m : List (κ × α)) (k : κ) : Option α :=
  (m.find? fun p => p.1 = k).map (·.2)

/-- `m[k] = v` : replace in place when the key exists, else append. -/
def mapSet {κ α : Type} [DecidableEq κ] (m : List (κ × α)) (k : κ) (v : α) :
    List (κ × α) :=
  match m with
  | [] => [(k, v)]
  | (k', v') :: rest =>
    if k' = k then (k, v) :: rest else (k', v') :: mapSet rest k v

/-- Upsert: apply `f` to the current value (or to `dflt` when absent). -/
def mapUpd {κ α : Type} [DecidableEq κ] (m : List (κ × α)) (k : κ) (dflt : α)
    (f : α → α) : List (κ × α) :=
  match m with
  | [] => [(k, f dflt)]
  | (k', v') :: rest =>
    if k' = k then (k, f v') :: rest else (k', v') :: mapUpd rest k dflt f

/-- `Object.values m`. -/
def mapValues {κ α : Type} (m : List (κ × α)) : List α := m.map (·.2)

/-- Keep-first deduplication with an accumulator of already-seen values. -/
def dedupSeen (seen : List String) : List String → List String
  | [] => []
  | x :: xs =>
    if x ∈ seen then dedupSeen seen xs else x :: dedupSeen (x :: seen) xs

/-- JS `Set` built by repeated `add`: keep the first occurrence of each value. -/
def dedupKeepFirst (l : List String) : List String := dedupSeen [] l

/-! ### String helpers -/

/-- `needle` occurs as a contiguous substring of `hay` (JS `String.includes`). -/
def containsSub (hay needle : String) : Bool :=
  go needle.toList hay.toList
where
  go (n : List Char) : List Char → Bool
    | [] => n.isEmpty
    | c :: cs => n.isPrefixOf (c :: cs) || go n cs

/-- JS `String.replace(old, '')` with a string pattern: first occurrence only. -/
def replaceFirst (s pat : String) : String :=
  ⟨go s.toList pat.toList⟩
where
  go (cs pat : List Char) : List Char :=
    match cs with
    | [] => []
    | c :: rest =>
      if pat.isPrefixOf (c :: rest) then (c :: rest).drop pat.length
      else c :: go rest pat

/-- JS regex `\s` on the characters that occur in blotter text. -/
def isSpaceChar (c : Char) : Bool := c = ' ' || c = '\t' || c = '\n' || c = '\r'

/-- `String.toUpperCase` over the code points (ASCII data in this engine). -/
def toUpperStr (s : String) : String := ⟨s.toList.map Char.toUpper⟩

/-- `String.trim`: strip leading and trailing whitespace. -/
def trimStr (s : String) : String :=
  ⟨((s.toList.dropWhile isSpaceChar).reverse.dropWhile isSpaceChar).reverse⟩

/-- Strict lexicographic order on code points (JS string `<`, and the order of
`Date.getTime` on equal-length ISO date strings). -/
def charListLt : List Char → List Char → Bool
  | [], [] => false
  | [], _ :: _ => true
  | _ :: _, [] => false
  | a :: as, b :: bs => a < b || (a = b && charListLt as bs)

/-- Strict lexicographic order on strings. -/
def lexLt (s t : String) : Bool := charListLt s.toList t.toList

/-- Lexicographic `≤` on strings (total: `¬ t < s`). -/
def lexLe (s t : String) : Bool := !(lexLt t s)

/-- `cleanTicker`: stringify and trim (missing/falsy cells arrive as `""`). -/
def cleanTicker (s : String) : String := trimStr s

/-! ### Security resolver (`isArgxOrd`, `isOption`, `getUniqueTicker`)

The three regular expressions of `isOption` are hand-compiled to executable
character-list matchers.  All quantifier ambiguity in them is resolved
deterministically because the involved character classes are disjoint, so the
compiled matchers are exact. -/

/-- `isArgxOrd(desc, currency)`: ordinary-share marker without ADR, or EUR. -/
def isArgxOrd (desc currency : String) : Bool :=
  let d := toUpperStr desc
  let c := toUpperStr currency
  (containsSub d "ORD" && !containsSub d "ADR") || containsSub c "EUR"

/-- Character class `[A-Z]`. -/
def isUpperAZ (c : Char) : Bool := 'A' ≤ c && c ≤ 'Z'

/-- JS regex word character `[A-Za-z0-9_]`. -/
def isWordChar (c : Char) : Bool :=
  ('A' ≤ c && c ≤ 'Z') || ('a' ≤ c && c ≤ 'z') || c.isDigit || c = '_'

/-- Matcher for `/^[A-Z]{1,7}\s*\d{6}[CP]\d{8}$/` (OCC option symbology). -/
def matchOccSym (s : String) : Bool :=
  let cs := s.toList
  let letters := cs.takeWhile isUpperAZ
  let rest := (cs.dropWhile isUpperAZ).dropWhile isSpaceChar
  decide (1 ≤ letters.length) && decide (letters.length ≤ 7) &&
  decide (rest.length = 15) &&
  (rest.take 6).all Char.isDigit &&
  (match rest.get? 6 with
   | some c => c = 'C' || c = 'P'
   | none => false) &&
  ((rest.drop 7).all Char.isDigit)

/-- Word-boundary occurrence of `w` in `s` (`/\b w \b/` for a word-char `w`). -/
def hasWholeWord (s w : String) : Bool :=
  go none s.toList w.toList
where
  go (prev : Option Char) (cs w : List Char) : Bool :=
    (boundary prev && w.isPrefixOf cs && after (cs.drop w.length)) ||
    (match cs with
     | [] => false
     | c :: rest => go (some c) rest w)
  boundary : Option Char → Bool
    | none => true
    | some c => !isWordChar c
  after : List Char → Bool
    | [] => true
    | c :: _ => !isWordChar c

/-- Matcher for one start position of `/\b\d+(\.\d+)?\s*[CP]\b/i`
(input is already upper-cased by `isOption`). -/
def strikeCpAt (prev : Option Char) (cs : List Char) : Bool :=
  (match prev with
   | none => true
   | some c => !isWordChar c) &&
  (match cs with
   | [] => false
   | c :: _ => c.isDigit) &&
  (let rest := cs.dropWhile Char.isDigit
   let rest2 :=
     match rest with
     | '.' :: d :: tl =>
       if d.isDigit then (d :: tl).dropWhile Char.isDigit else rest
     | _ => rest
   let rest3 := rest2.dropWhile isSpaceChar
   match rest3 with
   | c :: tail =>
     (c = 'C' || c = 'P') &&
     (match tail with
      | [] => true
      | c' :: _ => !isWordChar c')
   | [] => false)

/-- Matcher for `/\b\d+(\.\d+)?\s*[CP]\b/i` anywhere in `s`. -/
def hasStrikeCp (s : String) : Bool :=
  go none s.toList
where
  go (prev : Option Char) (cs : List Char) : Bool :=
    strikeCpAt prev cs ||
    (match cs with
     | [] => false
     | c :: rest => go (some c) rest)

/-- `isOption(ticker, desc)`: heuristic option classifier. -/
def isOption (ticker desc : String) : Bool :=
  let t := toUpperStr ticker
  let d := toUpperStr desc
  matchOccSym t ||
  hasWholeWord d "CALL" || hasWholeWord d "PUT" ||
  hasWholeWord d "OPTION" || hasWholeWord d "OPTN" ||
  hasStrikeCp d ||
  containsSub d " EXP " || containsSub d " EXPIRE "

/-- `getUniqueTicker(ticker, desc)`: canonical security identifier. -/
def getUniqueTicker (ticker desc : String) : String :=
  if isOption ticker desc then trimStr desc
  else trimStr (replaceFirst ticker "_PIPE")

/-! ### Raw source rows -/

/-- A raw date cell, with JS `Date` parsing abstracted at the boundary:
`iso s` when the cell would format to the ISO string `s`, `bad` when it is
present but unparsable, `missing` when absent or falsy. -/
inductive RawDate where
  | missing
  | bad
  | iso (s : String)
  deriving DecidableEq, Repr

/-- `parseExcelDate` on the abstracted cell: ISO string, or `''`. -/
def rawDateStr : RawDate → String
  | .missing => ""
  | .bad => ""
  | .iso s => s

/-- One raw transaction row as seen by `parseTradeBlotter` (numeric cells are
number-typed; string-typed numeric cells are outside the claims). -/
structure RawTradeRow where
  tradeId : Option String
  ticker : String
  txnType : String
  description : String
  priceCurrency : Option String
  currency : Option String
  price : ℚ
  netProceeds : ℚ
  quantity : ℚ
  fees : ℚ
  commissions : ℚ
  tradeDate : RawDate
  deriving DecidableEq, Repr

/-- `row['Trade Id']?.toString()` when truthy: the explicit identifier. -/
def rowIdStr (r : RawTradeRow) : Option String :=
  match r.tradeId with
  | some s => if s = "" then none else some s
  | none => none

/-- JS `a || b` for optional strings (empty string is falsy). -/
def orElseStr (o : Option String) (d : String) : String :=
  match o with
  | some s => if s = "" then d else s
  | none => d

/-! ### Blotter normalizer (`parseTradeBlotter`) -/

/-- `parseTradeBlotter`: one canonical `Trade` per kept raw row.  `rnd i` is
the `Math.random().toString()` value drawn for row index `i` when the row has
no explicit identifier. -/
def parseTradeBlotter (rows : List RawTradeRow) (rnd : ℕ → String) : List Trade :=
  rows.enum.filterMap fun p =>
    let i := p.1
    let row := p.2
    let rawTicker := cleanTicker row.ticker
    let txnType := row.txnType
    let description := row.description
    if rowIdStr row = none ∧ rawTicker = "" ∧ txnType = "" then none
    else
      let tickerUpper := toUpperStr rawTicker
      let descUpper := toUpperStr description
      if containsSub tickerUpper "FX SPOT" then none
      else if containsSub descUpper "FX SPOT" then none
      else if tickerUpper = "EURUSD" then none
      else if tickerUpper = "USDEUR" then none
      else
        some
          { tradeId := (rowIdStr row).getD (rnd i)
            description := description
            ticker := getUniqueTicker rawTicker description
            tradeDate := rawDateStr row.tradeDate
            txnType := txnType
            quantity := |row.quantity|
            price := row.price
            currency := orElseStr row.priceCurrency (orElseStr row.currency "USD")
            netProceeds := row.netProceeds
            fees := row.fees
            commissions := row.commissions }

/-! ### Alternate-class consolidator (`consolidateArgxTrades`) -/

/-- EUR to USD conversion applied to ARGX ordinary-share trades. -/
def convertArgx (t : Trade) : Trade :=
  if isArgxOrd t.description t.currency then
    { t with price := t.price * EUR_TO_USD, currency := "USD" }
  else t

/-- Accumulated state of one `(date, txnType)` ARGX group. -/
structure ArgxGroup where
  shares : ℚ
  cashFlowUsd : ℚ
  trades : List Trade
  deriving DecidableEq, Repr

/-- Group key of a trade: `(tradeDate, txnType)` (the JS code joins them with
a pipe; neither ISO dates nor the fixed transaction vocabulary contain one). -/
def argxKey (t : Trade) : String × String := (t.tradeDate, t.txnType)

/-- Add one converted ARGX trade into the group map. -/
def argxInsert (m : List ((String × String) × ArgxGroup)) (t : Trade) :
    List ((String × String) × ArgxGroup) :=
  mapUpd m (argxKey t) ⟨0, 0, []⟩ fun g =>
    { shares := g.shares + t.quantity
      cashFlowUsd := g.cashFlowUsd + t.quantity * t.price
      trades := g.trades ++ [t] }

/-- The ARGX group map of a (already converted) trade list. -/
def argxGroups (ts : List Trade) : List ((String × String) × ArgxGroup) :=
  ts.foldl argxInsert []

/-- The synthesized consolidated trade of one group. -/
def consTrade (date txnType : String) (g : ArgxGroup) : Trade :=
  let baseTrade := g.trades.headI
  { baseTrade with
      tradeId := "ARGX-CONS-" ++ date ++ "-" ++ txnType
      description := "ARGX ADR (merged USD)"
      ticker := "ARGX"
      quantity := g.shares
      price := g.cashFlowUsd / g.shares
      currency := "USD"
      netProceeds := (g.trades.map (·.netProceeds)).sum
      fees := (g.trades.map (·.fees)).sum
      commissions := (g.trades.map (·.commissions)).sum }

/-- Stable ascending sort of trades by date (JS `sort` by `Date.getTime`,
lexicographic on ISO strings). -/
def sortTradesByDate (ts : List Trade) : List Trade :=
  ts.insertionSort fun a b => lexLe a.tradeDate b.tradeDate

/-- `consolidateArgxTrades`: merge the dual-listed instrument's two classes. -/
def consolidateArgxTrades (trades : List Trade) : List Trade :=
  let argxTrades := (trades.filter fun t => t.ticker = "ARGX").map convertArgx
  let otherTrades := trades.filter fun t => ¬ t.ticker = "ARGX"
  let grouped := argxGroups argxTrades
  let consolidatedArgx :=
    grouped.filterMap fun p =>
      if 0 < p.2.shares then some (consTrade p.1.1 p.1.2 p.2) else none
  sortTradesByDate (otherTrades ++ consolidatedArgx)

/-! ### Valuation history ingestor (`parseHistorySheet`) -/

/-- One raw valuation row (fields already extracted through `findCol`; the
`HistCols` flags say which optional columns were discovered). -/
structure HistRow where
  dateCell : RawDate
  ticker : String
  description : String
  mv : ℚ
  price : ℚ
  qty : ℚ
  deriving DecidableEq, Repr

/-- Which columns `findCol` discovered in the history sheet. -/
structure HistCols where
  date : Bool
  ticker : Bool
  price : Bool
  mv : Bool
  desc : Bool
  qty : Bool
  deriving DecidableEq, Repr

/-- Per-date ARGX aggregation record of `parseHistorySheet`. -/
structure ArgxDaily where
  totQty : ℚ
  totMvUsd : ℚ
  adrPx : ℚ
  ordPx : ℚ
  deriving DecidableEq, Repr

/-- Result of `parseHistorySheet`. -/
structure HistData where
  dailyAumMap : List (String × ℚ)
  dailyPriceMap : List (String × List (String × ℚ))
  lastHistoryDateMap : List (String × String)
  firstHistoryDateMap : List (String × String)
  historyDates : List String
  deriving DecidableEq, Repr

/-- Mutable accumulator of the history-row loop. -/
structure HistAcc where
  data : HistData
  argxDaily : List (String × ArgxDaily)
  deriving DecidableEq, Repr

/-- Process one history row (the body of the `histJson.forEach`). -/
def histRowStep (cols : HistCols) (acc : HistAcc) (row : HistRow) : HistAcc :=
  if !cols.date ∨ row.dateCell = .missing then acc
  else if !cols.ticker then acc
  else
    match row.dateCell with
    | .missing => acc
    | .bad => acc
    | .iso date =>
      let d0 := acc.data
      let d1 := { d0 with
        historyDates :=
          if date ∈ d0.historyDates then d0.historyDates
          else d0.historyDates ++ [date] }
      let rawTicker := cleanTicker row.ticker
      let description := if cols.desc then row.description else ""
      if containsSub (toUpperStr rawTicker) "FX SPOT" then { acc with data := d1 }
      else if toUpperStr rawTicker = "EURUSD" then { acc with data := d1 }
      else
        let ticker := getUniqueTicker rawTicker description
        let mv := if cols.mv then row.mv else 0
        let price := if cols.price then row.price else 0
        let qty := if cols.qty then row.qty else 0
        let d2 :=
          if epsLot < |qty| ∨ epsMv < |mv| then
            let curLast := (mapGet d1.lastHistoryDateMap ticker).getD ""
            let withLast :=
              if lexLt curLast date then mapSet d1.lastHistoryDateMap ticker date
              else d1.lastHistoryDateMap
            let withFirst :=
              match mapGet d1.firstHistoryDateMap ticker with
              | none => mapSet d1.firstHistoryDateMap ticker date
              | some curFirst =>
                if lexLt date curFirst then mapSet d1.firstHistoryDateMap ticker date
                else d1.firstHistoryDateMap
            { d1 with lastHistoryDateMap := withLast,
                      firstHistoryDateMap := withFirst }
          else d1
        if ticker = "ARGX" then
          let isOrd := isArgxOrd description ""
          let pxUsd := if isOrd then price * EUR_TO_USD else price
          let mvUsd := |qty| * pxUsd
          let argx' := mapUpd acc.argxDaily date ⟨0, 0, 0, 0⟩ fun agg =>
            { totQty := agg.totQty + qty
              totMvUsd := agg.totMvUsd + mvUsd
              adrPx := if isOrd then agg.adrPx else pxUsd
              ordPx := if isOrd then pxUsd else agg.ordPx }
          let d3 := { d2 with
            dailyAumMap := mapUpd d2.dailyAumMap date 0 (· + mvUsd) }
          { data := d3, argxDaily := argx' }
        else
          let d3 :=
            if cols.mv then
              { d2 with dailyAumMap := mapUpd d2.dailyAumMap date 0 (· + mv) }
            else d2
          let d4 :=
            if ¬ ticker = "" ∧ 0 < price then
              { d3 with dailyPriceMap :=
                  mapUpd d3.dailyPriceMap date [] fun pm => mapSet pm ticker price }
            else d3
          { acc with data := d4 }

/-- Blend the accumulated ARGX daily data into the price map. -/
def argxFinalize (d : HistData) (argxDaily : List (String × ArgxDaily)) :
    HistData :=
  argxDaily.foldl
    (fun d p =>
      let date := p.1
      let agg := p.2
      let finalPrice :=
        if 0 < agg.totQty ∧ 0 < agg.totMvUsd then agg.totMvUsd / agg.totQty
        else if 0 < agg.adrPx then agg.adrPx
        else if 0 < agg.ordPx then agg.ordPx
        else 0
      if 0 < finalPrice then
        { d with dailyPriceMap :=
            mapUpd d.dailyPriceMap date [] (fun pm => mapSet pm "ARGX" finalPrice) }
      else d)
    d

/-- `parseHistorySheet`: fold the rows, then finalize the ARGX daily prices. -/
def parseHistorySheet (rows : List HistRow) (cols : HistCols) : HistData :=
  let acc := rows.foldl (histRowStep cols) ⟨⟨[], [], [], [], []⟩, []⟩
  argxFinalize acc.data acc.argxDaily

/-! ### Portfolio simulator (`simulatePortfolio`) -/

/-- Buy-like transaction types. -/
def buyTypes : List String := ["Buy", "Cover", "Stock Dividend", "Pair-off"]

/-- Sell-like transaction types. -/
def sellTypes : List String := ["Sell", "Short"]

/-- The HIFO lot-consumption loop: walk the (sorted) lots, fully consuming
lots while the remaining sale quantity covers them, splitting the final
partially-consumed lot; fully-consumed lots stay in place with zero shares.
Returns `(costOfSharesSold, lots)`. -/
def consumeLots (sharesToSell : ℚ) (lots : List TaxLot) : ℚ × List TaxLot :=
  match lots with
  | [] => (0, [])
  | lot :: rest =>
    if sharesToSell ≤ 0 then (0, lot :: rest)
    else if lot.shares ≤ sharesToSell then
      let r := consumeLots (sharesToSell - lot.shares) rest
      (lot.totalCost + r.1, { lot with shares := 0 } :: r.2)
    else
      let partialCost := sharesToSell * lot.costPerShare
      (partialCost,
        { lot with shares := lot.shares - sharesToSell,
                   totalCost := lot.totalCost - partialCost } :: rest)

/-- Stable descending sort of lots by cost-per-share (the HIFO order). -/
def sortLotsDesc (lots : List TaxLot) : List TaxLot :=
  lots.insertionSort fun a b => b.costPerShare ≤ a.costPerShare

/-- Sum of the remaining shares over a lot list. -/
def sumLotShares (lots : List TaxLot) : ℚ := (lots.map (·.shares)).sum

/-- Sum of the remaining total cost over a lot list. -/
def sumLotCost (lots : List TaxLot) : ℚ := (lots.map (·.totalCost)).sum

/-- The synthetic zero-share history point backfilled for the day before a
ticker's first trade (the "start buffer"). -/
def startHistoryFor (allDates : List String) (dateIdx : ℕ)
    (dailyPriceMap : List (String × List (String × ℚ))) (trade : Trade) :
    List PositionHistoryPoint :=
  if 0 < dateIdx then
    let prevDate := (allDates.get? (dateIdx - 1)).getD ""
    let startPrice :=
      match mapGet dailyPriceMap prevDate with
      | some pm =>
        match mapGet pm trade.ticker with
        | some px => if px = 0 then trade.price else px
        | none => trade.price
      | none => trade.price
    [{ date := prevDate, price := startPrice, shares := 0,
       avgCostBasis := 0, realizedPnL := 0, unrealizedPnL := 0,
       totalPnL := 0 }]
  else []

/-- A freshly created position state. -/
def freshPosState (startHistory : List PositionHistoryPoint) : PosState :=
  { shares := 0, lots := [], realizedPnL := 0, history := startHistory,
    sumSizePercentAUM := 0, daysPresent := 0, maxSizePercentAUM := 0 }

/-- `if (!currentHoldings[t]) currentHoldings[t] = { shares: 0, price: 0 }`. -/
def ensureHolding (m : List (String × Holding)) (k : String) :
    List (String × Holding) :=
  match mapGet m k with
  | some _ => m
  | none => mapSet m k ⟨0, 0⟩

/-- `if (!positionStates[t]) positionStates[t] = {...}` with the back-fill. -/
def ensurePosState (m : List (String × PosState)) (k : String)
    (startHistory : List PositionHistoryPoint) : List (String × PosState) :=
  match mapGet m k with
  | some _ => m
  | none => mapSet m k (freshPosState startHistory)

/-- The buy-like branch: increase shares and append a new tax lot. -/
def buyPos (trade : Trade) (ps : PosState) : PosState :=
  let totalCost := trade.quantity * trade.price +
    |trade.commissions| + |trade.fees|
  { ps with shares := ps.shares + trade.quantity,
            lots := ps.lots ++
              [{ date := trade.tradeDate, shares := trade.quantity,
                 costPerShare := totalCost / trade.quantity,
                 totalCost := totalCost }] }

/-- The sell-like branch: HIFO-consume lots, drop epsilon dust, book P&L. -/
def sellPos (trade : Trade) (ps : PosState) : PosState :=
  let r := consumeLots trade.quantity (sortLotsDesc ps.lots)
  let keptLots := r.2.filter fun l => epsLot < l.shares
  let proceeds := trade.quantity * trade.price -
    |trade.commissions| - |trade.fees|
  { ps with shares := ps.shares - trade.quantity,
            lots := keptLots,
            realizedPnL := ps.realizedPnL + (proceeds - r.1) }

/-- Apply one trade to the running state (the body of `daysTrades.forEach`).
`allDates`/`dateIdx` are needed for the start-buffer back-fill, and
`dailyPriceMap` for its price lookup. -/
def applyTrade (allDates : List String) (dateIdx : ℕ)
    (dailyPriceMap : List (String × List (String × ℚ)))
    (st : SimState) (trade : Trade) : SimState :=
  let st := { st with currentCash := st.currentCash + trade.netProceeds }
  if trade.ticker = "" then st
  else
    let st := { st with
      currentHoldings := ensureHolding st.currentHoldings trade.ticker,
      positionStates := ensurePosState st.positionStates trade.ticker
        (startHistoryFor allDates dateIdx dailyPriceMap trade) }
    let st :=
      if trade.txnType ∈ buyTypes then
        { st with
            currentHoldings := mapUpd st.currentHoldings trade.ticker ⟨0, 0⟩
              (fun h => { h with shares := h.shares + trade.quantity })
            positionStates := mapUpd st.positionStates trade.ticker default
              (buyPos trade) }
      else if trade.txnType ∈ sellTypes then
        { st with
            currentHoldings := mapUpd st.currentHoldings trade.ticker ⟨0, 0⟩
              (fun h => { h with shares := h.shares - trade.quantity })
            positionStates := mapUpd st.positionStates trade.ticker default
              (sellPos trade) }
      else st
    if 0 < trade.price then
      { st with currentHoldings :=
          mapUpd st.currentHoldings trade.ticker ⟨0, 0⟩ fun h =>
            { h with price := trade.price } }
    else st

/-- Step B: overwrite holding prices from the valuation price map. -/
def applyDailyPrices (dailyPriceMap : List (String × List (String × ℚ)))
    (date : String) (holdings : List (String × Holding)) :
    List (String × Holding) :=
  match mapGet dailyPriceMap date with
  | none => holdings
  | some pm =>
    pm.foldl
      (fun hs p =>
        match mapGet hs p.1 with
        | some h => mapSet hs p.1 { h with price := p.2 }
        | none => hs)
      holdings

/-- Σ(shares × price) over the holdings map. -/
def sumHoldingsValue (holdings : List (String × Holding)) : ℚ :=
  (holdings.map fun p => p.2.shares * p.2.price).sum

/-- Step C: the day's AUM.  JS `let aum = dailyAumMap[date]; if (!aum) ...`
falls through to the computed value when the entry is absent or zero. -/
def determineAum (dailyAumMap : List (String × ℚ)) (date : String)
    (holdings : List (String × Holding)) (cash : ℚ) : ℚ :=
  match mapGet dailyAumMap date with
  | some v => if v = 0 then sumHoldingsValue holdings + cash else v
  | none => sumHoldingsValue holdings + cash

/-- Step D body: per-ticker history point and size metrics for one date. -/
def updMetrics (holdings : List (String × Holding)) (date : String) (aum : ℚ)
    (ps : PosState) (ticker : String) : PosState :=
  let price :=
    match mapGet holdings ticker with
    | some h => h.price
    | none => 0
  let totalLotCost := sumLotCost ps.lots
  let totalLotShares := sumLotShares ps.lots
  let avgCostBasis := if 0 < totalLotShares then totalLotCost / totalLotShares else 0
  let marketValue := ps.shares * price
  let unrealizedPnL := marketValue - totalLotCost
  let ps := { ps with history := ps.history ++
    [{ date := date, price := price, shares := ps.shares,
       avgCostBasis := avgCostBasis, realizedPnL := ps.realizedPnL,
       unrealizedPnL := unrealizedPnL,
       totalPnL := ps.realizedPnL + unrealizedPnL }] }
  let sizePercent := if 0 < aum then marketValue / aum * 100 else 0
  let ps :=
    if ps.maxSizePercentAUM < sizePercent then
      { ps with maxSizePercentAUM := sizePercent }
    else ps
  if epsHeld < |ps.shares| then
    { ps with sumSizePercentAUM := ps.sumSizePercentAUM + sizePercent,
              daysPresent := ps.daysPresent + 1 }
  else ps

/-- The state after step A (the day's trades) and step B (price overwrites)
of one date, right before the snapshot is taken. -/
def preSnapshotState (allDates : List String)
    (tradesByDate : List (String × List Trade))
    (dailyPriceMap : List (String × List (String × ℚ)))
    (st : SimState) (p : ℕ × String) : SimState :=
  let daysTrades := (mapGet tradesByDate p.2).getD []
  let st := daysTrades.foldl (applyTrade allDates p.1 dailyPriceMap) st
  { st with currentHoldings := applyDailyPrices dailyPriceMap p.2 st.currentHoldings }

/-- The `PortfolioState` snapshot appended for one date. -/
def daySnapshot (allDates : List String)
    (tradesByDate : List (String × List Trade))
    (dailyPriceMap : List (String × List (String × ℚ)))
    (dailyAumMap : List (String × ℚ))
    (st : SimState) (p : ℕ × String) : PortfolioState :=
  let st1 := preSnapshotState allDates tradesByDate dailyPriceMap st p
  { date := p.2, holdings := st1.currentHoldings, cash := st1.currentCash,
    aum := determineAum dailyAumMap p.2 st1.currentHoldings st1.currentCash }

/-- One full date step of the simulation (A. trades, B. prices, C. AUM,
D. snapshot and per-ticker metrics). -/
def stepDate (allDates : List String)
    (tradesByDate : List (String × List Trade))
    (dailyPriceMap : List (String × List (String × ℚ)))
    (dailyAumMap : List (String × ℚ))
    (st : SimState) (p : ℕ × String) : SimState :=
  let st1 := preSnapshotState allDates tradesByDate dailyPriceMap st p
  let aum := determineAum dailyAumMap p.2 st1.currentHoldings st1.currentCash
  let snap : PortfolioState :=
    { date := p.2, holdings := st1.currentHoldings, cash := st1.currentCash,
      aum := aum }
  let st2 := { st1 with portfolioHistory := st1.portfolioHistory ++ [snap] }
  { st2 with positionStates := st2.positionStates.map fun (q : String × PosState) =>
      (q.1, updMetrics st2.currentHoldings p.2 aum q.2 q.1) }

/-- Group trades by date (trades with an empty date string are skipped). -/
def groupTradesByDate (trades : List Trade) : List (String × List Trade) :=
  trades.foldl
    (fun m t =>
      if t.tradeDate = "" then m
      else mapUpd m t.tradeDate [] (· ++ [t]))
    []

/-- `simulatePortfolio`: strict left-to-right fold over the timeline. -/
def simulatePortfolio (allDates : List String) (trades : List Trade)
    (dailyPriceMap : List (String × List (String × ℚ)))
    (dailyAumMap : List (String × ℚ)) : SimState :=
  let tradesByDate := groupTradesByDate trades
  allDates.enum.foldl (stepDate allDates tradesByDate dailyPriceMap dailyAumMap)
    ⟨[], [], 0, []⟩

/-! ### Position finalizer (`finalizePositions`) -/

/-- The loop body of `finalizePositions` for one ticker: every field of the
output `Position` is (re-)assigned here. -/
def finalizeOne (ticker : String) (ps : PosState)
    (currentHoldings : List (String × Holding)) (trades : List Trade)
    (lastHistoryDateMap firstHistoryDateMap : List (String × String)) :
    Position :=
  let totalLotCost := sumLotCost ps.lots
  let totalLotShares := sumLotShares ps.lots
  let averageCost := if 0 < totalLotShares then totalLotCost / totalLotShares else 0
  let lastPrice :=
    match mapGet currentHoldings ticker with
    | some h => h.price
    | none => 0
  let unrealizedPnL := ps.shares * lastPrice - totalLotCost
  let posTrades := trades.filter fun t => t.ticker = ticker
  let firstTradeDate := if posTrades.isEmpty then "" else posTrades.headI.tradeDate
  let lastTradeDate := if posTrades.isEmpty then "" else (posTrades.getLastD default).tradeDate
  let firstHistDate := (mapGet firstHistoryDateMap ticker).getD ""
  let lastHistDate := (mapGet lastHistoryDateMap ticker).getD ""
  let startDate :=
    if ¬ firstHistDate = "" ∧ (firstTradeDate = "" ∨ lexLt firstHistDate firstTradeDate)
    then firstHistDate else firstTradeDate
  let endDate :=
    if ¬ lastHistDate = "" ∧ (lastTradeDate = "" ∨ lexLt lastTradeDate lastHistDate)
    then lastHistDate else lastTradeDate
  let history :=
    if ¬ startDate = "" ∧ ¬ endDate = "" then
      match ps.history.findIdx? (fun h => h.date = startDate),
            ps.history.findIdx? (fun h => h.date = endDate) with
      | some startIndex, some endIndex =>
        let sliceStart := startIndex - 1
        let sliceEnd := min ps.history.length (endIndex + 2)
        (ps.history.drop sliceStart).take (sliceEnd - sliceStart)
      | _, _ => ps.history
    else ps.history
  let avgSizePercentAUM :=
    if 0 < ps.daysPresent then ps.sumSizePercentAUM / (ps.daysPresent : ℚ) else 0
  let isCurrentlyHeld := epsHeld < |ps.shares|
  let isSignificant := (1 : ℚ) ≤ avgSizePercentAUM
  { ticker := ticker
    shares := ps.shares
    averageCost := averageCost
    realizedPnL := ps.realizedPnL
    unrealizedPnL := unrealizedPnL
    totalPnL := ps.realizedPnL + unrealizedPnL
    maxSizePercentAUM := ps.maxSizePercentAUM
    avgSizePercentAUM := avgSizePercentAUM
    isSmallPosition := !(isSignificant || isCurrentlyHeld)
    trades := posTrades
    history := history }

/-- `finalizePositions`: derive the output `Position` list (`Object.values`
of the map written by the per-ticker loop; a repeated ticker key rewrites
every field, so the last occurrence wins and the entry keeps its position). -/
def finalizePositions (positionStates : List (String × PosState))
    (currentHoldings : List (String × Holding)) (trades : List Trade)
    (lastHistoryDateMap firstHistoryDateMap : List (String × String)) :
    List Position :=
  mapValues
    (positionStates.foldl
      (fun m p =>
        mapSet m p.1
          (finalizeOne p.1 p.2 currentHoldings trades
            lastHistoryDateMap firstHistoryDateMap))
      [])

/-! ### Pipeline (`parseTradeData`) -/

/-- Output of the full pipeline (`DashboardData`). -/
structure DashboardData where
  positions : List Position
  portfolioHistory : List PortfolioState
  trades : List Trade
  deriving DecidableEq, Repr

/-- Master timeline: trade dates unioned with valuation dates, deduplicated
(keeping first occurrence) and sorted ascending. -/
def buildTimeline (tradeDates historyDates : List String) : List String :=
  (dedupKeepFirst (dedupKeepFirst tradeDates ++ historyDates)).insertionSort
    (fun a b => lexLe a b)

/-- `parseTradeData`: the full pipeline over already-decoded row tables. -/
def parseTradeData (blotterRows : List RawTradeRow) (histRows : List HistRow)
    (cols : HistCols) (rnd : ℕ → String) : DashboardData :=
  let trades := consolidateArgxTrades (parseTradeBlotter blotterRows rnd)
  let hist := parseHistorySheet histRows cols
  let allDates := buildTimeline (trades.map (·.tradeDate)) hist.historyDates
  let sim := simulatePortfolio allDates trades hist.dailyPriceMap hist.dailyAumMap
  let positions := finalizePositions sim.positionStates sim.currentHoldings trades
    hist.lastHistoryDateMap hist.firstHistoryDateMap
  { positions := positions
    portfolioHistory := sim.portfolioHistory
    trades := trades }

/-! ### Identifier erasure (used by the idempotence analysis) -/

/-- Erase the (possibly random) trade identifier. -/
def eraseId (t : Trade) : Trade := { t with tradeId := "" }

/-- Erase the trade identifiers inside a finalized position. -/
def erasePosIds (p : Position) : Position := { p with trades := p.trades.map eraseId }

/-! ### Auxiliary definitions for the claims (cleanliness predicates and
concrete inputs) -/

/-- A lot whose shares have been fully consumed (it is removed by the
epsilon filter right after the loop). -/
def zeroShares (l : TaxLot) : TaxLot := { l with shares := 0 }

attribute [local semireducible] Rat.add Rat.sub Rat.mul Rat.inv

/-- A plain equity trade with no fees or commissions. -/
def plainTrade (tick ty date : String) (q p np : ℚ) : Trade :=
  { tradeId := "id", description := "", ticker := tick, tradeDate := date,
    txnType := ty, quantity := q, price := p, currency := "USD",
    netProceeds := np, fees := 0, commissions := 0 }

/-- Buy 100 @ 10, sell 100 @ 15, both fee-free. -/
def runBuySell : SimState :=
  simulatePortfolio ["2024-01-02", "2024-01-03"]
    [plainTrade "T" "Buy" "2024-01-02" 100 10 (-1000),
     plainTrade "T" "Sell" "2024-01-03" 100 15 1500] [] []

/-- Two open lots (100 @ 10 and 100 @ 20), then a sale of 50 @ 25. -/
def runTwoLotSale : SimState :=
  simulatePortfolio ["2024-01-02", "2024-01-03", "2024-01-04"]
    [plainTrade "T" "Buy" "2024-01-02" 100 10 (-1000),
     plainTrade "T" "Buy" "2024-01-03" 100 20 (-2000),
     plainTrade "T" "Sell" "2024-01-04" 50 25 1250] [] []

/-- Oversell then re-buy: buy 1 @ 10, sell 2 @ 10, buy 10 @ 10. -/
def runOversell : SimState :=
  simulatePortfolio ["2024-01-02", "2024-01-03", "2024-01-04"]
    [plainTrade "T" "Buy" "2024-01-02" 1 10 (-10),
     plainTrade "T" "Sell" "2024-01-03" 2 10 20,
     plainTrade "T" "Buy" "2024-01-04" 10 10 (-100)] [] []

/-- One buy on a date whose valuation AUM entry is present but zero. -/
def runZeroAum : SimState :=
  simulatePortfolio ["2024-01-02"] [plainTrade "A" "Buy" "2024-01-02" 10 5 0]
    [] [("2024-01-02", 0)]

/-- The open tax lots of a ticker (empty when the ticker has no state yet). -/
def posLots (st : SimState) (k : String) : List TaxLot :=
  match mapGet st.positionStates k with
  | some ps => ps.lots
  | none => []

/-- Conservation invariant: every ticker's lot shares sum to its share count. -/
def lotsConserved (st : SimState) : Prop :=
  ∀ q ∈ st.positionStates, sumLotShares q.2.lots = q.2.shares

/-- A trade is "clean" for the current state: a sell-like trade sells a
nonnegative quantity that is covered by the open lots, and its consumption
leaves every surviving lot either exactly empty or above the 1e-6 epsilon
(so the epsilon filter discards nothing that still holds shares). -/
def tradeClean (st : SimState) (t : Trade) : Bool :=
  if t.txnType ∈ sellTypes ∧ ¬ t.ticker = "" then
    (0 ≤ t.quantity ∧ t.quantity ≤ sumLotShares (posLots st t.ticker) ∧
      ∀ l ∈ (consumeLots t.quantity (sortLotsDesc (posLots st t.ticker))).2,
        l.shares = 0 ∨ epsLot < l.shares)
  else true

/-- Clean application of a day's trade list, threading the state. -/
def tradesClean (allDates : List String) (dateIdx : ℕ)
    (pm : List (String × List (String × ℚ))) (st : SimState) :
    List Trade → Bool
  | [] => true
  | t :: ts =>
    tradeClean st t &&
      tradesClean allDates dateIdx pm (applyTrade allDates dateIdx pm st t) ts

/-- Clean run over the dated steps. -/
def runClean (allDates : List String) (tbd : List (String × List Trade))
    (pm : List (String × List (String × ℚ))) (am : List (String × ℚ)) :
    SimState → List (ℕ × String) → Bool
  | _, [] => true
  | st, p :: ps =>
    tradesClean allDates p.1 pm st ((mapGet tbd p.2).getD []) &&
      runClean allDates tbd pm am (stepDate allDates tbd pm am st p) ps

/-- The whole simulation is clean. -/
def simClean (allDates : List String) (trades : List Trade)
    (pm : List (String × List (String × ℚ))) (am : List (String × ℚ)) : Bool :=
  runClean allDates (groupTradesByDate trades) pm am ⟨[], [], 0, []⟩
    allDates.enum

/-- The converted ARGX trades belonging to one `(date, txnType)` group. -/
def argxMembers (ts : List Trade) (key : String × String) : List Trade :=
  ts.filter fun t => argxKey t = key

/-- The members of the `(d, ty)` group of the dual-listed instrument after
currency conversion. -/
def argxMembersOf (trades : List Trade) (d ty : String) : List Trade :=
  argxMembers ((trades.filter fun t => t.ticker = "ARGX").map convertArgx) (d, ty)

/-- Same-day ARGX depositary-receipt buy: 100 shares at 50 USD. -/
def argxAdr : Trade :=
  { tradeId := "a", description := "ARGENX SE ADR", ticker := "ARGX",
    tradeDate := "2024-01-02", txnType := "Buy", quantity := 100, price := 50,
    currency := "USD", netProceeds := -5000, fees := 0, commissions := 0 }

/-- Same-day ARGX ordinary-share buy: 100 shares at 40 EUR. -/
def argxOrd : Trade :=
  { tradeId := "b", description := "ARGENX SE ORD", ticker := "ARGX",
    tradeDate := "2024-01-02", txnType := "Buy", quantity := 100, price := 40,
    currency := "EUR", netProceeds := -4680, fees := 0, commissions := 0 }

/-- A raw blotter row whose date cell cannot be parsed. -/
def badDateRow : RawTradeRow :=
  { tradeId := some "1", ticker := "T", txnType := "Buy", description := "",
    priceCurrency := none, currency := none, price := 10, netProceeds := 0,
    quantity := 5, fees := 0, commissions := 0, tradeDate := .bad }

/-- A raw row whose transaction type is neither buy-like nor sell-like. -/
def cashRow : RawTradeRow :=
  { tradeId := some "1", ticker := "T", txnType := "Dividend", description := "",
    priceCurrency := none, currency := none, price := 0, netProceeds := 7,
    quantity := 5, fees := 0, commissions := 0, tradeDate := .iso "2024-01-02" }

/-- All columns discovered in the history sheet. -/
def allCols : HistCols := ⟨true, true, true, true, true, true⟩

/-- Position state with average size exactly 1.0 percent and zero shares. -/
def boundaryPos : PosState :=
  { shares := 0, lots := [], realizedPnL := 0, history := [],
    sumSizePercentAUM := 1, daysPresent := 1, maxSizePercentAUM := 1 }

/-- Identifier erasure of a group's member list. -/
def eraseGroupIds (g : ArgxGroup) : ArgxGroup :=
  { g with trades := g.trades.map eraseId }

/-- The consolidated-ARGX part of the output, with the composite identifier
erased (used to show that consolidation only depends on the id-erased input). -/
def consolidatedOf (E : List Trade) : List Trade :=
  (argxGroups ((E.filter fun t => t.ticker = "ARGX").map convertArgx)).filterMap
    fun p => if 0 < p.2.shares then some (eraseId (consTrade p.1.1 p.1.2 p.2)) else none

/-- The id-erased image of `consolidateArgxTrades`, as a function of the
id-erased trade list. -/
def consolidateErased (E : List Trade) : List Trade :=
  sortTradesByDate ((E.filter fun t => ¬ t.ticker = "ARGX") ++ consolidatedOf E)

/-! ## Helper lemmas -/

theorem mapGet_nil {κ α : Type} [DecidableEq κ] (k : κ) :
    mapGet ([] : List (κ × α)) k = none := rfl

theorem mapGet_cons {κ α : Type} [DecidableEq κ] (k k' : κ) (v : α) (m) :
    mapGet ((k', v) :: m) k = if k' = k then some v else mapGet m k := by
  by_cases h : k' = k <;> simp [mapGet, List.find?, h]

theorem mapSet_cons {κ α : Type} [DecidableEq κ] (a : κ) (b : α) (m : List (κ × α))
    (k v) :
    mapSet ((a, b) :: m) k v =
      if a = k then (k, v) :: m else (a, b) :: mapSet m k v := rfl

theorem mapUpd_cons {κ α : Type} [DecidableEq κ] (a : κ) (b : α) (m : List (κ × α))
    (k d f) :
    mapUpd ((a, b) :: m) k d f =
      if a = k then (k, f b) :: m else (a, b) :: mapUpd m k d f := rfl

theorem mapGet_mapSet_self {κ α : Type} [DecidableEq κ] (m : List (κ × α)) (k v) :
    mapGet (mapSet m k v) k = some v := by
  induction m with
  | nil => simp [mapSet, mapGet_cons]
  | cons p rest ih =>
    obtain ⟨a, b⟩ := p
    rw [mapSet_cons]
    by_cases h : a = k
    · simp [h, mapGet_cons]
    · rw [if_neg h, mapGet_cons, if_neg h, ih]

theorem mapGet_mapSet_ne {κ α : Type} [DecidableEq κ] (m : List (κ × α)) (k k' v)
    (h : k' ≠ k) : mapGet (mapSet m k v) k' = mapGet m k' := by
  induction m with
  | nil => simp [mapSet, mapGet_cons, mapGet_nil, Ne.symm h]
  | cons p rest ih =>
    obtain ⟨a, b⟩ := p
    rw [mapSet_cons]
    by_cases ha : a = k
    · subst ha
      rw [if_pos rfl, mapGet_cons, mapGet_cons, if_neg (Ne.symm h), if_neg (Ne.symm h)]
    · rw [if_neg ha, mapGet_cons, mapGet_cons, ih]

theorem mapGet_mapUpd_self {κ α : Type} [DecidableEq κ] (m : List (κ × α)) (k d f) :
    mapGet (mapUpd m k d f) k = some (f ((mapGet m k).getD d)) := by
  induction m with
  | nil => simp [mapUpd, mapGet_cons, mapGet_nil]
  | cons p rest ih =>
    obtain ⟨a, b⟩ := p
    rw [mapUpd_cons]
    by_cases h : a = k
    · subst h
      simp [mapGet_cons]
    · rw [if_neg h, mapGet_cons, if_neg h, mapGet_cons, if_neg h, ih]

theorem mapGet_mapUpd_ne {κ α : Type} [DecidableEq κ] (m : List (κ × α)) (k k' d f)
    (h : k' ≠ k) : mapGet (mapUpd m k d f) k' = mapGet m k' := by
  induction m with
  | nil => simp [mapUpd, mapGet_cons, mapGet_nil, Ne.symm h]
  | cons p rest ih =>
    obtain ⟨a, b⟩ := p
    rw [mapUpd_cons]
    by_cases ha : a = k
    · subst ha
      rw [if_pos rfl, mapGet_cons, mapGet_cons, if_neg (Ne.symm h), if_neg (Ne.symm h)]
    · rw [if_neg ha, mapGet_cons, mapGet_cons, ih]

theorem mem_mapSet {κ α : Type} [DecidableEq κ] (m : List (κ × α)) (k v q)
    (h : q ∈ mapSet m k v) : q ∈ m ∨ q = (k, v) := by
  induction m with
  | nil => exact Or.inr (by simpa [mapSet] using h)
  | cons p rest ih =>
    obtain ⟨a, b⟩ := p
    rw [mapSet_cons] at h
    by_cases ha : a = k
    · rw [if_pos ha, List.mem_cons] at h
      rcases h with h | h
      · exact Or.inr h
      · exact Or.inl (List.mem_cons_of_mem _ h)
    · rw [if_neg ha, List.mem_cons] at h
      rcases h with h | h
      · exact Or.inl (by simp [h])
      · rcases ih h with h' | h'
        · exact Or.inl (List.mem_cons_of_mem _ h')
        · exact Or.inr h'

theorem mem_mapUpd {κ α : Type} [DecidableEq κ] (m : List (κ × α)) (k d f q)
    (h : q ∈ mapUpd m k d f) : q ∈ m ∨ q = (k, f ((mapGet m k).getD d)) := by
  induction m with
  | nil => exact Or.inr (by simpa [mapUpd, mapGet_nil] using h)
  | cons p rest ih =>
    obtain ⟨a, b⟩ := p
    rw [mapUpd_cons] at h
    by_cases ha : a = k
    · subst ha
      rw [if_pos rfl, List.mem_cons] at h
      rcases h with h | h
      · exact Or.inr (by simpa [mapGet_cons] using h)
      · exact Or.inl (List.mem_cons_of_mem _ h)
    · rw [if_neg ha, List.mem_cons] at h
      rcases h with h | h
      · exact Or.inl (by simp [h])
      · rcases ih h with h' | h'
        · exact Or.inl (List.mem_cons_of_mem _ h')
        · refine Or.inr ?_
          rw [h', mapGet_cons, if_neg ha]

theorem mapValues_mapSet_sub {κ α : Type} [DecidableEq κ] (m : List (κ × α)) (k v x)
    (h : x ∈ mapValues (mapSet m k v)) : x = v ∨ x ∈ mapValues m := by
  rw [mapValues, List.mem_map] at h
  obtain ⟨q, hq, hx⟩ := h
  rcases mem_mapSet m k v q hq with h' | h'
  · exact Or.inr (by rw [mapValues, List.mem_map]; exact ⟨q, h', hx⟩)
  · exact Or.inl (by rw [h'] at hx; exact hx.symm)

/-! ## Concrete runs used by the claims

The executable arithmetic of `ℚ` is sealed `irreducible` by the library; the
concrete evaluations below unseal it for kernel reduction. -/

/-! ## C1 : HIFO consumption -/

theorem sumLotShares_nil : sumLotShares [] = 0 := rfl

theorem sumLotShares_cons (l : TaxLot) (ls : List TaxLot) :
    sumLotShares (l :: ls) = l.shares + sumLotShares ls := by
  simp [sumLotShares]

theorem sumLotShares_append (xs ys : List TaxLot) :
    sumLotShares (xs ++ ys) = sumLotShares xs + sumLotShares ys := by
  simp [sumLotShares]

/-- The HIFO loop fully consumes a prefix of the lot list (in list order),
possibly splits exactly one further lot, and leaves the suffix untouched. -/
theorem consumeLots_structure (s : ℚ) (lots : List TaxLot) (hs : 0 ≤ s) :
    (sumLotShares lots ≤ s ∧ (consumeLots s lots).2 = lots.map zeroShares) ∨
    (∃ k, k ≤ lots.length ∧
      (consumeLots s lots).2 = (lots.take k).map zeroShares ++ lots.drop k ∧
      sumLotShares (lots.take k) = s) ∨
    (∃ k spl, k < lots.length ∧
      (consumeLots s lots).2 =
        (lots.take k).map zeroShares ++ spl :: lots.drop (k + 1) ∧
      spl.costPerShare = (lots.getD k default).costPerShare ∧
      0 < spl.shares ∧ spl.shares < (lots.getD k default).shares ∧
      sumLotShares (lots.take k) + ((lots.getD k default).shares - spl.shares) = s) := by
  induction lots generalizing s with
  | nil =>
    left
    refine ⟨by simpa [sumLotShares_nil] using hs, ?_⟩
    simp [consumeLots]
  | cons lot rest ih =>
    by_cases h0 : s ≤ 0
    · have hs0 : s = 0 := le_antisymm h0 hs
      right; left
      refine ⟨0, Nat.zero_le _, ?_, ?_⟩
      · simp [consumeLots, h0]
      · simp [sumLotShares_nil, hs0]
    · have h0' : 0 < s := lt_of_not_ge h0
      by_cases hle : lot.shares ≤ s
      · have hs' : 0 ≤ s - lot.shares := by linarith
        rcases ih (s - lot.shares) hs' with ⟨hsum, heq⟩ | ⟨k, hk, heq, hsumk⟩ |
          ⟨k, spl, hk, heq, hcps, hpos, hlt, hsumk⟩
        · left
          constructor
          · rw [sumLotShares_cons]; linarith
          · simp [consumeLots, h0, hle, heq, zeroShares]
        · right; left
          refine ⟨k + 1, by simpa using hk, ?_, ?_⟩
          · simp [consumeLots, h0, hle, heq, zeroShares]
          · rw [List.take_succ_cons, sumLotShares_cons, hsumk]; ring
        · right; right
          refine ⟨k + 1, spl, by simpa using hk, ?_, ?_, hpos, ?_, ?_⟩
          · simp [consumeLots, h0, hle, heq, zeroShares]
          · simpa using hcps
          · simpa using hlt
          · rw [List.take_succ_cons, sumLotShares_cons]
            simp only [List.getD_cons_succ] at hsumk ⊢
            rw [add_assoc, hsumk]
            ring
      · have hlt : s < lot.shares := lt_of_not_ge hle
        right; right
        refine ⟨0, ⟨lot.date, lot.shares - s, lot.costPerShare,
          lot.totalCost - s * lot.costPerShare⟩,
          Nat.succ_pos _, ?_, rfl, by simpa using hlt, ?_, ?_⟩
        · simp [consumeLots, h0, hle]
        · simpa using sub_lt_self lot.shares h0'
        · simp [sumLotShares_nil]

instance : IsTotal TaxLot fun a b => b.costPerShare ≤ a.costPerShare :=
  ⟨fun a b => le_total b.costPerShare a.costPerShare⟩

instance : IsTrans TaxLot fun a b => b.costPerShare ≤ a.costPerShare :=
  ⟨fun _ _ _ hab hbc => le_trans hbc hab⟩

/-- `sortLotsDesc` really orders the lots by descending cost-per-share. -/
theorem sortLotsDesc_sorted (lots : List TaxLot) :
    (sortLotsDesc lots).Sorted fun a b => b.costPerShare ≤ a.costPerShare :=
  List.sorted_insertionSort _ lots

/-- C1: sell-like trades consume lots in descending cost-per-share order
(the lot list is sorted descending, then a prefix is fully consumed with at
most one final lot split, the suffix untouched); concretely, with open lots of
100 @ 10 and 100 @ 20, selling 50 (at price 25) leaves lots of 50 @ 20 and
100 @ 10 and charges the 50 consumed shares at cost-per-share 20 (realized
P&L 50 × (25 − 20) = 250). -/
theorem hifo_descending_consumption :
    (∀ lots : List TaxLot,
      (sortLotsDesc lots).Sorted fun a b => b.costPerShare ≤ a.costPerShare) ∧
    (∀ (s : ℚ) (lots : List TaxLot), 0 ≤ s →
      (sumLotShares lots ≤ s ∧ (consumeLots s lots).2 = lots.map zeroShares) ∨
      (∃ k, k ≤ lots.length ∧
        (consumeLots s lots).2 = (lots.take k).map zeroShares ++ lots.drop k ∧
        sumLotShares (lots.take k) = s) ∨
      (∃ k spl, k < lots.length ∧
        (consumeLots s lots).2 =
          (lots.take k).map zeroShares ++ spl :: lots.drop (k + 1) ∧
        spl.costPerShare = (lots.getD k default).costPerShare ∧
        0 < spl.shares ∧ spl.shares < (lots.getD k default).shares ∧
        sumLotShares (lots.take k) + ((lots.getD k default).shares - spl.shares) = s)) ∧
    ((mapGet runTwoLotSale.positionStates "T").map fun ps =>
        (ps.lots, ps.realizedPnL)) =
      some ([{ date := "2024-01-03", shares := 50, costPerShare := 20,
               totalCost := 1000 },
             { date := "2024-01-02", shares := 100, costPerShare := 10,
               totalCost := 1000 }], 250) :=
  ⟨sortLotsDesc_sorted, consumeLots_structure, by
    set_option maxRecDepth 8000 in decide⟩

/-- Witness for the quantified parts of `hifo_descending_consumption` at a
concrete input: two lots 100 @ 10 (front) and 100 @ 20, selling 50 after the
descending sort splits the 20-cost lot. -/
theorem hifo_descending_consumption_witness :
    ((0:ℚ) ≤ 50) ∧
    ((sumLotShares [⟨"d", 100, 20, 2000⟩, ⟨"e", 100, 10, 1000⟩] ≤ 50 ∧
      (consumeLots 50 [⟨"d", 100, 20, 2000⟩, ⟨"e", 100, 10, 1000⟩]).2 =
        [⟨"d", 100, 20, 2000⟩, ⟨"e", 100, 10, 1000⟩].map zeroShares) ∨
    (∃ k, k ≤ ([⟨"d", 100, 20, 2000⟩, ⟨"e", 100, 10, 1000⟩] : List TaxLot).length ∧
      (consumeLots 50 [⟨"d", 100, 20, 2000⟩, ⟨"e", 100, 10, 1000⟩]).2 =
        (([⟨"d", 100, 20, 2000⟩, ⟨"e", 100, 10, 1000⟩] : List TaxLot).take k).map zeroShares ++
          ([⟨"d", 100, 20, 2000⟩, ⟨"e", 100, 10, 1000⟩] : List TaxLot).drop k ∧
      sumLotShares (([⟨"d", 100, 20, 2000⟩, ⟨"e", 100, 10, 1000⟩] : List TaxLot).take k) = 50) ∨
    (∃ k spl, k < ([⟨"d", 100, 20, 2000⟩, ⟨"e", 100, 10, 1000⟩] : List TaxLot).length ∧
      (consumeLots 50 [⟨"d", 100, 20, 2000⟩, ⟨"e", 100, 10, 1000⟩]).2 =
        (([⟨"d", 100, 20, 2000⟩, ⟨"e", 100, 10, 1000⟩] : List TaxLot).take k).map zeroShares ++
          spl :: ([⟨"d", 100, 20, 2000⟩, ⟨"e", 100, 10, 1000⟩] : List TaxLot).drop (k + 1) ∧
      spl.costPerShare =
        (([⟨"d", 100, 20, 2000⟩, ⟨"e", 100, 10, 1000⟩] : List TaxLot).getD k default).costPerShare ∧
      0 < spl.shares ∧
      spl.shares < (([⟨"d", 100, 20, 2000⟩, ⟨"e", 100, 10, 1000⟩] : List TaxLot).getD k default).shares ∧
      sumLotShares (([⟨"d", 100, 20, 2000⟩, ⟨"e", 100, 10, 1000⟩] : List TaxLot).take k) +
        ((([⟨"d", 100, 20, 2000⟩, ⟨"e", 100, 10, 1000⟩] : List TaxLot).getD k default).shares -
          spl.shares) = 50)) :=
  ⟨by norm_num,
   hifo_descending_consumption.2.1 50
     [⟨"d", 100, 20, 2000⟩, ⟨"e", 100, 10, 1000⟩] (by norm_num)⟩

/-! ## C3 -/

/-- C3: for a ticker whose trade sequence is a single buy-like trade of 100
shares at price 10 with zero fees/commissions followed by a single sell-like
trade of 100 shares at price 15 with zero fees/commissions, the cumulative
realized P&L after the sale is exactly 500. -/
theorem realized_pnl_exactly_500 :
    ((mapGet runBuySell.positionStates "T").map fun ps => ps.realizedPnL) =
      some 500 := by decide

/-! ## C2 : lot conservation -/

theorem mapGet_eq_some_mem {κ α : Type} [DecidableEq κ]
    {m : List (κ × α)} {k : κ} {v : α} (h : mapGet m k = some v) : (k, v) ∈ m := by
  unfold mapGet at h
  cases hf : m.find? fun p => p.1 = k with
  | none => rw [hf] at h; cases h
  | some p =>
    rw [hf] at h
    have hm := List.mem_of_find?_eq_some hf
    have hp1 : p.1 = k := by simpa using List.find?_some hf
    have hv : p.2 = v := Option.some.inj h
    obtain ⟨p1, p2⟩ := p
    dsimp only at hp1 hv
    rw [← hp1, ← hv]
    exact hm

/-- Sorting lots for HIFO does not change the total shares. -/
theorem sumLotShares_sortLotsDesc (lots : List TaxLot) :
    sumLotShares (sortLotsDesc lots) = sumLotShares lots := by
  unfold sumLotShares sortLotsDesc
  exact ((List.perm_insertionSort
    (fun a b => b.costPerShare ≤ a.costPerShare) lots).map (·.shares)).sum_eq

/-- Covered consumption removes exactly the sold quantity. -/
theorem consumeLots_sum (s : ℚ) (lots : List TaxLot) (hs : 0 ≤ s)
    (hcov : s ≤ sumLotShares lots) :
    sumLotShares (consumeLots s lots).2 = sumLotShares lots - s := by
  induction lots generalizing s with
  | nil =>
    rw [sumLotShares_nil] at hcov ⊢
    have : s = 0 := le_antisymm hcov hs
    simp [consumeLots, this, sumLotShares_nil]
  | cons lot rest ih =>
    by_cases h0 : s ≤ 0
    · have hs0 : s = 0 := le_antisymm h0 hs
      simp [consumeLots, h0, hs0]
    · by_cases hle : lot.shares ≤ s
      · have hs' : 0 ≤ s - lot.shares := by linarith
        have hcov' : s - lot.shares ≤ sumLotShares rest := by
          rw [sumLotShares_cons] at hcov
          linarith
        have := ih (s - lot.shares) hs' hcov'
        simp only [consumeLots, h0, if_false, hle, if_true]
        rw [sumLotShares_cons, sumLotShares_cons, this]
        dsimp only
        ring
      · simp only [consumeLots, h0, if_false, hle]
        rw [sumLotShares_cons, sumLotShares_cons]
        dsimp only
        ring

/-- The epsilon filter keeps the total when every lot is empty or large. -/
theorem sumLotShares_filter_eps (lots : List TaxLot)
    (h : ∀ l ∈ lots, l.shares = 0 ∨ epsLot < l.shares) :
    sumLotShares (lots.filter fun l => epsLot < l.shares) = sumLotShares lots := by
  induction lots with
  | nil => rfl
  | cons lot rest ih =>
    have hrest := ih fun l hl => h l (List.mem_cons_of_mem _ hl)
    rcases h lot (List.mem_cons_self lot rest) with h0 | hbig
    · have : ¬ epsLot < lot.shares := by
        rw [h0]
        unfold epsLot
        norm_num
      rw [List.filter_cons, if_neg (by simpa using this), hrest,
        sumLotShares_cons, h0]
      ring
    · rw [List.filter_cons, if_pos (by simpa using hbig), sumLotShares_cons,
        hrest, sumLotShares_cons]

theorem mapGet_ensurePosState_self (m : List (String × PosState)) (k : String)
    (sh : List PositionHistoryPoint) :
    mapGet (ensurePosState m k sh) k =
      some ((mapGet m k).getD (freshPosState sh)) := by
  unfold ensurePosState
  cases hm : mapGet m k with
  | some ps => simpa using hm
  | none => simp [mapGet_mapSet_self]

theorem mapGet_ensurePosState_ne (m : List (String × PosState)) (k k' : String)
    (sh : List PositionHistoryPoint) (hne : k' ≠ k) :
    mapGet (ensurePosState m k sh) k' = mapGet m k' := by
  unfold ensurePosState
  cases hm : mapGet m k with
  | some ps => rfl
  | none => exact mapGet_mapSet_ne _ _ _ _ hne

theorem mem_ensurePosState (m : List (String × PosState)) (k : String)
    (sh : List PositionHistoryPoint) (q) (hq : q ∈ ensurePosState m k sh) :
    q ∈ m ∨ q = (k, freshPosState sh) := by
  unfold ensurePosState at hq
  cases hm : mapGet m k with
  | some ps =>
    rw [hm] at hq
    exact Or.inl hq
  | none =>
    rw [hm] at hq
    exact mem_mapSet _ _ _ _ hq

theorem mapGet_ensureHolding_self (m : List (String × Holding)) (k : String) :
    (mapGet (ensureHolding m k) k).isSome = true := by
  unfold ensureHolding
  cases hm : mapGet m k with
  | some h => simp [hm]
  | none => simp [hm, mapGet_mapSet_self]

/-- The lots seen by the sell branch are the pre-state lots of the ticker. -/
theorem ensurePosState_lots (m : List (String × PosState)) (k : String)
    (sh : List PositionHistoryPoint) :
    ((mapGet m k).getD (freshPosState sh)).lots =
      (match mapGet m k with
       | some ps => ps.lots
       | none => []) := by
  cases hm : mapGet m k with
  | some ps => rfl
  | none => rfl

/-- Applying one clean trade preserves lot conservation. -/
theorem applyTrade_conserved (allDates : List String) (dateIdx : ℕ)
    (pm : List (String × List (String × ℚ))) (st : SimState) (t : Trade)
    (hc : lotsConserved st) (ht : tradeClean st t = true) :
    lotsConserved (applyTrade allDates dateIdx pm st t) := by
  have hcur : sumLotShares ((mapGet st.positionStates t.ticker).getD
      (freshPosState (startHistoryFor allDates dateIdx pm t))).lots =
      ((mapGet st.positionStates t.ticker).getD
        (freshPosState (startHistoryFor allDates dateIdx pm t))).shares := by
    cases hm : mapGet st.positionStates t.ticker with
    | some ps => exact hc (t.ticker, ps) (mapGet_eq_some_mem hm)
    | none => rfl
  have hlots : ((mapGet st.positionStates t.ticker).getD
      (freshPosState (startHistoryFor allDates dateIdx pm t))).lots =
      posLots st t.ticker := by
    unfold posLots
    exact ensurePosState_lots _ _ _
  intro q hq
  unfold applyTrade at hq
  dsimp only at hq
  by_cases htick : t.ticker = ""
  · rw [if_pos htick] at hq
    exact hc q hq
  · rw [if_neg htick] at hq
    have hq2 : q ∈ (if t.txnType ∈ buyTypes then
        mapUpd (ensurePosState st.positionStates t.ticker
          (startHistoryFor allDates dateIdx pm t)) t.ticker default (buyPos t)
      else if t.txnType ∈ sellTypes then
        mapUpd (ensurePosState st.positionStates t.ticker
          (startHistoryFor allDates dateIdx pm t)) t.ticker default (sellPos t)
      else ensurePosState st.positionStates t.ticker
        (startHistoryFor allDates dateIdx pm t)) := by
      by_cases hpx : 0 < t.price
      · rw [if_pos hpx] at hq
        dsimp only at hq
        by_cases hbuy : t.txnType ∈ buyTypes
        · rw [if_pos hbuy] at hq ⊢
          exact hq
        · rw [if_neg hbuy] at hq ⊢
          by_cases hsell : t.txnType ∈ sellTypes
          · rw [if_pos hsell] at hq ⊢
            exact hq
          · rw [if_neg hsell] at hq ⊢
            exact hq
      · rw [if_neg hpx] at hq
        by_cases hbuy : t.txnType ∈ buyTypes
        · rw [if_pos hbuy] at hq ⊢
          exact hq
        · rw [if_neg hbuy] at hq ⊢
          by_cases hsell : t.txnType ∈ sellTypes
          · rw [if_pos hsell] at hq ⊢
            exact hq
          · rw [if_neg hsell] at hq ⊢
            exact hq
    clear hq
    by_cases hbuy : t.txnType ∈ buyTypes
    · rw [if_pos hbuy] at hq2
      rcases mem_mapUpd _ _ _ _ _ hq2 with hm | hm
      · rcases mem_ensurePosState _ _ _ _ hm with hm' | hm'
        · exact hc q hm'
        · rw [hm']
          rfl
      · rw [hm]
        dsimp only
        rw [mapGet_ensurePosState_self]
        simp only [Option.getD_some]
        unfold buyPos
        dsimp only
        rw [sumLotShares_append, hcur, sumLotShares_cons, sumLotShares_nil]
        ring
    · rw [if_neg hbuy] at hq2
      by_cases hsell : t.txnType ∈ sellTypes
      · rw [if_pos hsell] at hq2
        have hcl : 0 ≤ t.quantity ∧
            t.quantity ≤ sumLotShares (posLots st t.ticker) ∧
            ∀ l ∈ (consumeLots t.quantity
              (sortLotsDesc (posLots st t.ticker))).2,
              l.shares = 0 ∨ epsLot < l.shares := by
          unfold tradeClean at ht
          rw [if_pos ⟨hsell, htick⟩] at ht
          exact of_decide_eq_true ht
        rcases mem_mapUpd _ _ _ _ _ hq2 with hm | hm
        · rcases mem_ensurePosState _ _ _ _ hm with hm' | hm'
          · exact hc q hm'
          · rw [hm']
            rfl
        · rw [hm]
          dsimp only
          rw [mapGet_ensurePosState_self]
          simp only [Option.getD_some]
          unfold sellPos
          dsimp only
          rw [sumLotShares_filter_eps _ (by rw [hlots]; exact hcl.2.2),
            consumeLots_sum _ _ hcl.1
              (by rw [sumLotShares_sortLotsDesc, hlots]; exact hcl.2.1),
            sumLotShares_sortLotsDesc, hcur]
      · rw [if_neg hsell] at hq2
        rcases mem_ensurePosState _ _ _ _ hq2 with hm' | hm'
        · exact hc q hm'
        · rw [hm']
          rfl

/-- The per-date metrics update never touches shares or lots. -/
theorem updMetrics_lots_shares (h : List (String × Holding)) (d : String)
    (a : ℚ) (ps : PosState) (k : String) :
    (updMetrics h d a ps k).lots = ps.lots ∧
      (updMetrics h d a ps k).shares = ps.shares := by
  unfold updMetrics
  dsimp only
  repeat' split
  all_goals exact ⟨rfl, rfl⟩

/-- A clean day of trades preserves lot conservation. -/
theorem foldl_applyTrade_conserved (allDates : List String) (dateIdx : ℕ)
    (pm : List (String × List (String × ℚ))) (ts : List Trade) (st : SimState)
    (hc : lotsConserved st)
    (hts : tradesClean allDates dateIdx pm st ts = true) :
    lotsConserved (ts.foldl (applyTrade allDates dateIdx pm) st) := by
  induction ts generalizing st with
  | nil => exact hc
  | cons t ts ih =>
    unfold tradesClean at hts
    rw [Bool.and_eq_true] at hts
    rw [List.foldl_cons]
    exact ih _ (applyTrade_conserved _ _ _ _ _ hc hts.1) hts.2

/-- A clean date step preserves lot conservation. -/
theorem stepDate_conserved (allDates : List String)
    (tbd : List (String × List Trade))
    (pm : List (String × List (String × ℚ))) (am : List (String × ℚ))
    (st : SimState) (p : ℕ × String) (hc : lotsConserved st)
    (hday : tradesClean allDates p.1 pm st ((mapGet tbd p.2).getD []) = true) :
    lotsConserved (stepDate allDates tbd pm am st p) := by
  have hfold := foldl_applyTrade_conserved allDates p.1 pm
    ((mapGet tbd p.2).getD []) st hc hday
  intro q hq
  unfold stepDate preSnapshotState at hq
  dsimp only at hq
  rw [List.mem_map] at hq
  obtain ⟨q', hq', hqeq⟩ := hq
  rw [← hqeq]
  dsimp only
  rcases updMetrics_lots_shares _ _ _ q'.2 q'.1 with ⟨hl, hs⟩
  rw [hl, hs]
  exact hfold q' hq'

/-- A clean run of date steps preserves lot conservation. -/
theorem runClean_conserved (allDates : List String)
    (tbd : List (String × List Trade))
    (pm : List (String × List (String × ℚ))) (am : List (String × ℚ))
    (ps : List (ℕ × String)) (st : SimState) (hc : lotsConserved st)
    (hr : runClean allDates tbd pm am st ps = true) :
    lotsConserved (ps.foldl (stepDate allDates tbd pm am) st) := by
  induction ps generalizing st with
  | nil => exact hc
  | cons p ps ih =>
    unfold runClean at hr
    rw [Bool.and_eq_true] at hr
    rw [List.foldl_cons]
    exact ih _ (stepDate_conserved _ _ _ _ _ _ hc hr.1) hr.2

/-- C2 (amended): lot conservation is exact — for every ticker the remaining
lot shares sum to the ticker's share count — after every clean trade, and at
the end of every clean simulation; "clean" means no sell-like trade ever
exceeded the available lot shares (the short-position approximation) or left
a surviving lot at or below the 1e-6 epsilon (which the dust filter would
discard). -/
theorem lot_conservation_clean :
    (∀ (allDates : List String) (dateIdx : ℕ)
      (pm : List (String × List (String × ℚ))) (st : SimState) (t : Trade),
      lotsConserved st → tradeClean st t = true →
      lotsConserved (applyTrade allDates dateIdx pm st t)) ∧
    (∀ (allDates : List String) (trades : List Trade)
      (pm : List (String × List (String × ℚ))) (am : List (String × ℚ)),
      simClean allDates trades pm am = true →
      lotsConserved (simulatePortfolio allDates trades pm am)) := by
  refine ⟨applyTrade_conserved, ?_⟩
  intro allDates trades pm am hclean
  unfold simulatePortfolio
  exact runClean_conserved _ _ _ _ _ _ (by intro q hq; cases hq) hclean

/-- Witness for `lot_conservation_clean`: the fee-free buy/sell run is clean
and its final state conserves lots. -/
theorem lot_conservation_clean_witness :
    simClean ["2024-01-02", "2024-01-03"]
      [plainTrade "T" "Buy" "2024-01-02" 100 10 (-1000),
       plainTrade "T" "Sell" "2024-01-03" 100 15 1500] [] [] = true ∧
    lotsConserved (simulatePortfolio ["2024-01-02", "2024-01-03"]
      [plainTrade "T" "Buy" "2024-01-02" 100 10 (-1000),
       plainTrade "T" "Sell" "2024-01-03" 100 15 1500] [] []) :=
  ⟨by decide,
   lot_conservation_clean.2 ["2024-01-02", "2024-01-03"]
     [plainTrade "T" "Buy" "2024-01-02" 100 10 (-1000),
      plainTrade "T" "Sell" "2024-01-03" 100 15 1500] [] [] (by decide)⟩

/-- Counterexample to C2 as stated: buy 1, sell 2 (the sale overruns the open
lots and is absorbed), then buy 10 — the ticker ends with share count 9 > 0
while its lots sum to 10, off by 1, far beyond the 1e-6 tolerance. -/
theorem lot_conservation_violated_oversell :
    ((mapGet runOversell.positionStates "T").map fun ps =>
      (ps.shares, sumLotShares ps.lots)) = some (9, 10) ∧
    (0 : ℚ) < 9 ∧ ¬ |(10 : ℚ) - 9| ≤ epsLot :=
  ⟨by decide, by norm_num, by unfold epsLot; norm_num⟩

/-! ## C5 : alternate-class consolidation -/

theorem mapGet_eq_none_iff {κ α : Type} [DecidableEq κ] (m : List (κ × α))
    (k : κ) : mapGet m k = none ↔ k ∉ m.map (·.1) := by
  induction m with
  | nil => simp [mapGet_nil]
  | cons p rest ih =>
    obtain ⟨a, b⟩ := p
    rw [mapGet_cons]
    by_cases ha : a = k
    · simp [ha]
    · simp [ha, ih, Ne.symm ha]

theorem keys_mapUpd {κ α : Type} [DecidableEq κ] (m : List (κ × α)) (k d f) :
    (mapUpd m k d f).map (·.1) =
      if (mapGet m k).isSome then m.map (·.1) else m.map (·.1) ++ [k] := by
  induction m with
  | nil => simp [mapUpd, mapGet_nil]
  | cons p rest ih =>
    obtain ⟨a, b⟩ := p
    rw [mapUpd_cons, mapGet_cons]
    by_cases ha : a = k
    · simp [ha]
    · rw [if_neg ha]
      simp only [List.map_cons, if_neg ha, ih]
      by_cases hm : (mapGet rest k).isSome
      · rw [if_pos hm, if_pos hm]
      · rw [if_neg hm, if_neg hm]
        rfl

theorem keys_mapUpd_nodup {κ α : Type} [DecidableEq κ] (m : List (κ × α))
    (k d f) (h : (m.map (·.1)).Nodup) :
    ((mapUpd m k d f).map (·.1)).Nodup := by
  rw [keys_mapUpd]
  by_cases hm : (mapGet m k).isSome
  · rwa [if_pos hm]
  · rw [if_neg hm]
    have hk : k ∉ m.map (·.1) := by
      rw [← mapGet_eq_none_iff]
      exact Option.not_isSome_iff_eq_none.mp hm
    simp [List.nodup_append, h, hk]

theorem argxGroups_keys_nodup (ts : List Trade) :
    ((argxGroups ts).map (·.1)).Nodup := by
  unfold argxGroups
  induction ts using List.reverseRecOn with
  | nil => simp
  | append_singleton ts t ih =>
    rw [List.foldl_append, List.foldl_cons, List.foldl_nil]
    exact keys_mapUpd_nodup _ _ _ _ ih

theorem mapGet_of_mem_nodup {κ α : Type} [DecidableEq κ]
    {m : List (κ × α)} {k : κ} {v : α} (hn : (m.map (·.1)).Nodup)
    (hq : (k, v) ∈ m) : mapGet m k = some v := by
  induction m with
  | nil => cases hq
  | cons p rest ih =>
    obtain ⟨a, b⟩ := p
    rw [List.map_cons, List.nodup_cons] at hn
    rw [mapGet_cons]
    rcases List.mem_cons.mp hq with hq' | hq'
    · obtain ⟨h1, h2⟩ := Prod.mk.inj hq'.symm
      rw [if_pos h1, h2]
    · by_cases ha : a = k
      · exfalso
        subst ha
        exact hn.1 (by simpa using List.mem_map_of_mem (·.1) hq')
      · rw [if_neg ha]
        exact ih hn.2 hq'

/-- Lookup in the ARGX group map, characterized by the member list. -/
theorem argxGroups_char (ts : List Trade) (key : String × String) :
    mapGet (argxGroups ts) key =
      if argxMembers ts key = [] then none
      else some
        { shares := ((argxMembers ts key).map (·.quantity)).sum,
          cashFlowUsd := ((argxMembers ts key).map fun t => t.quantity * t.price).sum,
          trades := argxMembers ts key } := by
  unfold argxGroups argxMembers
  induction ts using List.reverseRecOn with
  | nil => simp [mapGet_nil]
  | append_singleton ts t ih =>
    rw [List.foldl_append, List.foldl_cons, List.foldl_nil]
    rw [List.filter_append]
    by_cases hkey : argxKey t = key
    · have hfilter : List.filter (fun t => decide (argxKey t = key)) [t] = [t] := by
        simp [hkey]
      rw [hfilter]
      rw [show argxInsert (List.foldl argxInsert [] ts) t =
        mapUpd (List.foldl argxInsert [] ts) (argxKey t) ⟨0, 0, []⟩
          (fun g => { shares := g.shares + t.quantity,
                      cashFlowUsd := g.cashFlowUsd + t.quantity * t.price,
                      trades := g.trades ++ [t] }) from rfl]
      rw [hkey, mapGet_mapUpd_self, ih]
      by_cases hempty : ts.filter (fun t => decide (argxKey t = key)) = []
      · rw [if_pos hempty, hempty]
        simp
      · rw [if_neg hempty, if_neg (by simp [hempty])]
        simp
    · rw [show argxInsert (List.foldl argxInsert [] ts) t =
        mapUpd (List.foldl argxInsert [] ts) (argxKey t) ⟨0, 0, []⟩
          (fun g => { shares := g.shares + t.quantity,
                      cashFlowUsd := g.cashFlowUsd + t.quantity * t.price,
                      trades := g.trades ++ [t] }) from rfl]
      rw [mapGet_mapUpd_ne _ _ _ _ _ (fun h => hkey h.symm), ih]
      have hfilter : List.filter (fun t => decide (argxKey t = key)) [t] = [] := by
        simp [hkey]
      rw [hfilter, List.append_nil]

/-- The consolidated trade of a group whose member list starts with a trade
of the group's key carries the key's date and type (and the ARGX ticker). -/
theorem consTrade_key_fields (d ty : String) (g : ArgxGroup) (t0 : Trade)
    (tl : List Trade) (htr : g.trades = t0 :: tl) (hk : argxKey t0 = (d, ty)) :
    (consTrade d ty g).ticker = "ARGX" ∧
    (consTrade d ty g).tradeDate = d ∧ (consTrade d ty g).txnType = ty := by
  obtain ⟨h1, h2⟩ := Prod.mk.inj hk
  unfold consTrade
  rw [htr]
  exact ⟨rfl, h1, h2⟩

/-- Groups at other keys contribute nothing to the `(d, ty)` filter. -/
theorem filter_consolidated_nil (d ty : String)
    (gs : List ((String × String) × ArgxGroup))
    (h : ∀ e ∈ gs, (∃ t0 tl, e.2.trades = t0 :: tl ∧ argxKey t0 = e.1) ∧
      e.1 ≠ (d, ty)) :
    ((gs.filterMap fun p =>
        if 0 < p.2.shares then some (consTrade p.1.1 p.1.2 p.2) else none).filter
      fun t => t.ticker = "ARGX" ∧ t.tradeDate = d ∧ t.txnType = ty) = [] := by
  induction gs with
  | nil => rfl
  | cons e gs ih =>
    have he := h e (List.mem_cons_self _ _)
    obtain ⟨⟨t0, tl, htr, hk⟩, hne⟩ := he
    have ihrest := ih fun e' he' => h e' (List.mem_cons_of_mem _ he')
    rw [List.filterMap_cons]
    by_cases hpos : 0 < e.2.shares
    · rw [if_pos hpos, List.filter_cons]
      obtain ⟨_, hd, hty⟩ := consTrade_key_fields e.1.1 e.1.2 e.2 t0 tl htr
        (hk.trans Prod.mk.eta.symm)
      have hpred : ¬ ((consTrade e.1.1 e.1.2 e.2).ticker = "ARGX" ∧
          (consTrade e.1.1 e.1.2 e.2).tradeDate = d ∧
          (consTrade e.1.1 e.1.2 e.2).txnType = ty) := by
        rintro ⟨-, h2, h3⟩
        exact hne (Prod.ext_iff.mpr ⟨hd.symm.trans h2, hty.symm.trans h3⟩)
      rw [if_neg (by simpa using hpred)]
      exact ihrest
    · rw [if_neg hpos]
      exact ihrest

/-- With distinct, keyed groups, the `(d, ty)` filter of the consolidated
trades is exactly the one trade of the `(d, ty)` group. -/
theorem filter_consolidated_single (d ty : String) (g : ArgxGroup)
    (gs : List ((String × String) × ArgxGroup))
    (hn : (gs.map (·.1)).Nodup)
    (hkp : ∀ e ∈ gs, ∃ t0 tl, e.2.trades = t0 :: tl ∧ argxKey t0 = e.1)
    (hmem : ((d, ty), g) ∈ gs) (hpos : 0 < g.shares) :
    ((gs.filterMap fun p =>
        if 0 < p.2.shares then some (consTrade p.1.1 p.1.2 p.2) else none).filter
      fun t => t.ticker = "ARGX" ∧ t.tradeDate = d ∧ t.txnType = ty) =
    [consTrade d ty g] := by
  induction gs with
  | nil => cases hmem
  | cons e gs ih =>
    rw [List.map_cons, List.nodup_cons] at hn
    rcases List.mem_cons.mp hmem with hme | hme
    · subst hme
      rw [List.filterMap_cons, if_pos hpos, List.filter_cons]
      obtain ⟨t0, tl, htr, hk⟩ := hkp _ (List.mem_cons_self _ _)
      obtain ⟨ht, hd, hty⟩ := consTrade_key_fields d ty g t0 tl htr hk
      rw [if_pos (by simp [ht, hd, hty])]
      have hrest : ((gs.filterMap fun p =>
          if 0 < p.2.shares then some (consTrade p.1.1 p.1.2 p.2) else none).filter
        fun t => t.ticker = "ARGX" ∧ t.tradeDate = d ∧ t.txnType = ty) = [] := by
        refine filter_consolidated_nil d ty gs fun e' he' => ?_
        refine ⟨hkp e' (List.mem_cons_of_mem _ he'), fun hcontra => ?_⟩
        exact hn.1 (by
          rw [← hcontra] at *
          exact List.mem_map_of_mem (·.1) he')
      rw [hrest]
    · have hne : e.1 ≠ (d, ty) := by
        intro hcontra
        refine hn.1 ?_
        rw [hcontra]
        simpa using List.mem_map_of_mem (·.1) hme
      have ihres := ih hn.2 (fun e' he' => hkp e' (List.mem_cons_of_mem _ he'))
        hme
      rw [List.filterMap_cons]
      by_cases hpos' : 0 < e.2.shares
      · obtain ⟨t0, tl, htr, hk⟩ := hkp _ (List.mem_cons_self _ _)
        obtain ⟨_, hd, hty⟩ := consTrade_key_fields e.1.1 e.1.2 e.2 t0 tl htr
          (hk.trans Prod.mk.eta.symm)
        rw [if_pos hpos', List.filter_cons]
        have hpred : ¬ ((consTrade e.1.1 e.1.2 e.2).ticker = "ARGX" ∧
            (consTrade e.1.1 e.1.2 e.2).tradeDate = d ∧
            (consTrade e.1.1 e.1.2 e.2).txnType = ty) := by
          rintro ⟨-, h2, h3⟩
          exact hne (Prod.ext_iff.mpr ⟨hd.symm.trans h2, hty.symm.trans h3⟩)
        rw [if_neg (by simpa using hpred)]
        exact ihres
      · rw [if_neg hpos']
        exact ihres

/-- C5: for every `(date, txnType)` group of the dual-listed instrument with
positive aggregate share count, the consolidator emits exactly one ARGX trade
for that date and type, whose quantity is the sum of the group's quantities,
whose price is the converted total notional divided by total shares, whose
net proceeds, fees and commissions are the arithmetic sums of the group's
members, and whose identifier is the deterministic composite of date and
type; concretely, 100 @ 50 USD plus 100 @ 40 EUR (rate 1.17) on one day
consolidate to one 200-share trade at price 48.40. -/
theorem argx_consolidation :
    (∀ (trades : List Trade) (d ty : String),
      argxMembersOf trades d ty ≠ [] →
      0 < ((argxMembersOf trades d ty).map (·.quantity)).sum →
      (consolidateArgxTrades trades).filter
          (fun t => t.ticker = "ARGX" ∧ t.tradeDate = d ∧ t.txnType = ty) =
        [{ tradeId := "ARGX-CONS-" ++ d ++ "-" ++ ty,
           description := "ARGX ADR (merged USD)",
           ticker := "ARGX",
           tradeDate := d,
           txnType := ty,
           quantity := ((argxMembersOf trades d ty).map (·.quantity)).sum,
           price := ((argxMembersOf trades d ty).map fun t =>
             t.quantity * t.price).sum /
             ((argxMembersOf trades d ty).map (·.quantity)).sum,
           currency := "USD",
           netProceeds := ((argxMembersOf trades d ty).map (·.netProceeds)).sum,
           fees := ((argxMembersOf trades d ty).map (·.fees)).sum,
           commissions := ((argxMembersOf trades d ty).map (·.commissions)).sum }]) ∧
    ((consolidateArgxTrades [argxAdr, argxOrd]).map fun t =>
        (t.tradeId, t.quantity, t.price, t.netProceeds, t.currency)) =
      [("ARGX-CONS-2024-01-02-Buy", 200, 242/5, -9680, "USD")] := by
  constructor
  · intro trades d ty hne hpos
    have hne' : argxMembers
        ((trades.filter fun t => t.ticker = "ARGX").map convertArgx) (d, ty) ≠
        [] := hne
    have hchar := argxGroups_char
      ((trades.filter fun t => t.ticker = "ARGX").map convertArgx) (d, ty)
    rw [if_neg hne'] at hchar
    have hmemG := mapGet_eq_some_mem hchar
    have hnodup := argxGroups_keys_nodup
      ((trades.filter fun t => t.ticker = "ARGX").map convertArgx)
    have hkp : ∀ e ∈ argxGroups
        ((trades.filter fun t => t.ticker = "ARGX").map convertArgx),
        ∃ t0 tl, e.2.trades = t0 :: tl ∧ argxKey t0 = e.1 := by
      intro e he
      have hg : mapGet (argxGroups
          ((trades.filter fun t => t.ticker = "ARGX").map convertArgx)) e.1 =
          some e.2 := by
        have : (e.1, e.2) ∈ argxGroups
            ((trades.filter fun t => t.ticker = "ARGX").map convertArgx) := by
          simpa using he
        exact mapGet_of_mem_nodup hnodup this
      rw [argxGroups_char] at hg
      by_cases hemp : argxMembers
          ((trades.filter fun t => t.ticker = "ARGX").map convertArgx) e.1 = []
      · rw [if_pos hemp] at hg
        cases hg
      · rw [if_neg hemp] at hg
        have htr : e.2.trades = argxMembers
            ((trades.filter fun t => t.ticker = "ARGX").map convertArgx) e.1 := by
          have := Option.some.inj hg
          rw [← this]
        cases hm : argxMembers
            ((trades.filter fun t => t.ticker = "ARGX").map convertArgx) e.1 with
        | nil => exact absurd hm hemp
        | cons t0 tl =>
          refine ⟨t0, tl, by rw [htr, hm], ?_⟩
          have ht0 : t0 ∈ argxMembers
              ((trades.filter fun t => t.ticker = "ARGX").map convertArgx) e.1 := by
            rw [hm]
            exact List.mem_cons_self _ _
          unfold argxMembers at ht0
          simpa using (List.mem_filter.mp ht0).2
    have hsingle := filter_consolidated_single d ty
      _ (argxGroups ((trades.filter fun t => t.ticker = "ARGX").map convertArgx))
      hnodup hkp hmemG (by exact hpos)
    have hother : ((trades.filter fun t => ¬ t.ticker = "ARGX").filter
        (fun t => t.ticker = "ARGX" ∧ t.tradeDate = d ∧ t.txnType = ty)) = [] := by
      rw [List.filter_eq_nil_iff]
      intro t htm
      have := (List.mem_filter.mp htm).2
      simp only [decide_eq_true_iff] at this
      simp [this]
    have hstep : (consolidateArgxTrades trades).filter
        (fun t => t.ticker = "ARGX" ∧ t.tradeDate = d ∧ t.txnType = ty) =
        [consTrade d ty
          { shares := ((argxMembersOf trades d ty).map (·.quantity)).sum,
            cashFlowUsd := ((argxMembersOf trades d ty).map fun t =>
              t.quantity * t.price).sum,
            trades := argxMembersOf trades d ty }] := by
      refine List.perm_singleton.mp ?_
      unfold consolidateArgxTrades
      have hperm := (List.perm_insertionSort
        (fun a b => lexLe a.tradeDate b.tradeDate)
        ((trades.filter fun t => ¬ t.ticker = "ARGX") ++
          ((argxGroups ((trades.filter fun t => t.ticker = "ARGX").map
            convertArgx)).filterMap fun p =>
            if 0 < p.2.shares then some (consTrade p.1.1 p.1.2 p.2) else none)))
      have hfil := hperm.filter
        (fun t => decide (t.ticker = "ARGX" ∧ t.tradeDate = d ∧ t.txnType = ty))
      unfold sortTradesByDate
      refine hfil.trans ?_
      rw [List.filter_append, hother, List.nil_append, hsingle]
      exact List.Perm.refl _
    rw [hstep]
    -- finally rewrite the consolidated trade into its explicit field form
    cases hm : argxMembersOf trades d ty with
    | nil => exact absurd hm hne
    | cons t0 tl =>
      have ht0 : argxKey t0 = (d, ty) := by
        have : t0 ∈ argxMembersOf trades d ty := by
          rw [hm]
          exact List.mem_cons_self _ _
        unfold argxMembersOf argxMembers at this
        simpa using (List.mem_filter.mp this).2
      obtain ⟨hd, hty⟩ := Prod.mk.inj ht0
      unfold consTrade
      dsimp only [List.headI]
      rw [← hd, ← hty]
  · decide

/-- Witness for the quantified part of `argx_consolidation` at the two-buy
input (USD depositary receipt and EUR ordinary share on the same day). -/
theorem argx_consolidation_witness :
    (argxMembersOf [argxAdr, argxOrd] "2024-01-02" "Buy" ≠ [] ∧
      0 < ((argxMembersOf [argxAdr, argxOrd] "2024-01-02" "Buy").map
        (·.quantity)).sum) ∧
    (consolidateArgxTrades [argxAdr, argxOrd]).filter
        (fun t => t.ticker = "ARGX" ∧ t.tradeDate = "2024-01-02" ∧
          t.txnType = "Buy") =
      [{ tradeId := "ARGX-CONS-" ++ "2024-01-02" ++ "-" ++ "Buy",
         description := "ARGX ADR (merged USD)",
         ticker := "ARGX",
         tradeDate := "2024-01-02",
         txnType := "Buy",
         quantity := ((argxMembersOf [argxAdr, argxOrd] "2024-01-02" "Buy").map
           (·.quantity)).sum,
         price := ((argxMembersOf [argxAdr, argxOrd] "2024-01-02" "Buy").map
           fun t => t.quantity * t.price).sum /
           ((argxMembersOf [argxAdr, argxOrd] "2024-01-02" "Buy").map
             (·.quantity)).sum,
         currency := "USD",
         netProceeds := ((argxMembersOf [argxAdr, argxOrd] "2024-01-02"
           "Buy").map (·.netProceeds)).sum,
         fees := ((argxMembersOf [argxAdr, argxOrd] "2024-01-02" "Buy").map
           (·.fees)).sum,
         commissions := ((argxMembersOf [argxAdr, argxOrd] "2024-01-02"
           "Buy").map (·.commissions)).sum }] :=
  ⟨⟨by decide, by decide⟩,
   argx_consolidation.1 [argxAdr, argxOrd] "2024-01-02" "Buy"
     (by decide) (by decide)⟩

/-! ## C7 : the master timeline -/

theorem mem_dedupSeen (l : List String) (seen : List String) (x : String) :
    x ∈ dedupSeen seen l ↔ x ∈ l ∧ x ∉ seen := by
  induction l generalizing seen with
  | nil => simp [dedupSeen]
  | cons y ys ih =>
    unfold dedupSeen
    by_cases hy : y ∈ seen
    · rw [if_pos hy, ih]
      constructor
      · rintro ⟨h1, h2⟩
        exact ⟨List.mem_cons_of_mem _ h1, h2⟩
      · rintro ⟨h1, h2⟩
        rcases List.mem_cons.mp h1 with h1' | h1'
        · exact absurd (h1' ▸ hy) h2
        · exact ⟨h1', h2⟩
    · rw [if_neg hy]
      constructor
      · intro h
        rcases List.mem_cons.mp h with h' | h'
        · exact ⟨h' ▸ List.mem_cons_self _ _, h' ▸ hy⟩
        · obtain ⟨h1, h2⟩ := (ih (y :: seen)).mp h'
          exact ⟨List.mem_cons_of_mem _ h1,
            fun hc => h2 (List.mem_cons_of_mem _ hc)⟩
      · rintro ⟨h1, h2⟩
        rcases List.mem_cons.mp h1 with h1' | h1'
        · exact h1' ▸ List.mem_cons_self _ _
        · by_cases hxy : x = y
          · exact hxy ▸ List.mem_cons_self _ _
          · exact List.mem_cons_of_mem _ ((ih (y :: seen)).mpr
              ⟨h1', fun hc => (List.mem_cons.mp hc).elim hxy h2⟩)

theorem nodup_dedupSeen (l : List String) (seen : List String) :
    (dedupSeen seen l).Nodup := by
  induction l generalizing seen with
  | nil => exact List.nodup_nil
  | cons y ys ih =>
    unfold dedupSeen
    by_cases hy : y ∈ seen
    · rw [if_pos hy]
      exact ih seen
    · rw [if_neg hy]
      refine List.nodup_cons.mpr ⟨?_, ih (y :: seen)⟩
      intro hc
      exact ((mem_dedupSeen ys (y :: seen) y).mp hc).2 (List.mem_cons_self _ _)

theorem mem_dedupKeepFirst (l : List String) (x : String) :
    x ∈ dedupKeepFirst l ↔ x ∈ l := by
  unfold dedupKeepFirst
  rw [mem_dedupSeen]
  simp

theorem nodup_dedupKeepFirst (l : List String) :
    (dedupKeepFirst l).Nodup := nodup_dedupSeen l []

theorem charListLt_asymm :
    ∀ as bs : List Char, charListLt as bs = true → charListLt bs as = false := by
  intro as
  induction as with
  | nil =>
    intro bs h
    cases bs with
    | nil => cases h
    | cons b tl => rfl
  | cons a tl ih =>
    intro bs h
    cases bs with
    | nil => cases h
    | cons b btl =>
      unfold charListLt at h ⊢
      rw [Bool.or_eq_true] at h
      rcases h with h | h
      · have hab : a < b := by simpa using h
        have h1 : ¬ b < a := lt_asymm hab
        have h2 : ¬ b = a := (ne_of_gt hab)
        simp [h1, h2]
      · rw [Bool.and_eq_true] at h
        have hab : a = b := by simpa using h.1
        subst hab
        have := ih btl h.2
        simp [this]

theorem charListLt_connex :
    ∀ as bs : List Char, charListLt as bs = false → charListLt bs as = false →
      as = bs := by
  intro as
  induction as with
  | nil =>
    intro bs h1 h2
    cases bs with
    | nil => rfl
    | cons b tl => cases h1
  | cons a tl ih =>
    intro bs h1 h2
    cases bs with
    | nil => cases h2
    | cons b btl =>
      unfold charListLt at h1 h2
      rw [Bool.or_eq_false_iff] at h1 h2
      obtain ⟨h1a, h1b⟩ := h1
      obtain ⟨h2a, h2b⟩ := h2
      have hab : ¬ a < b := by simpa using h1a
      have hba : ¬ b < a := by simpa using h2a
      have heq : a = b := le_antisymm (le_of_not_lt hba) (le_of_not_lt hab)
      subst heq
      simp at h1b h2b
      rw [ih btl h1b h2b]

theorem charListLt_trans :
    ∀ as bs cs : List Char, charListLt as bs = true → charListLt bs cs = true →
      charListLt as cs = true := by
  intro as
  induction as with
  | nil =>
    intro bs cs h1 h2
    cases bs with
    | nil => cases h1
    | cons b btl =>
      cases cs with
      | nil => cases h2
      | cons c ctl => rfl
  | cons a tl ih =>
    intro bs cs h1 h2
    cases bs with
    | nil => cases h1
    | cons b btl =>
      cases cs with
      | nil => cases h2
      | cons c ctl =>
        unfold charListLt at h1 h2 ⊢
        rw [Bool.or_eq_true] at h1 h2 ⊢
        rcases h1 with h1 | h1
        · have hab : a < b := by simpa using h1
          rcases h2 with h2 | h2
          · have hbc : b < c := by simpa using h2
            exact Or.inl (by simpa using lt_trans hab hbc)
          · rw [Bool.and_eq_true] at h2
            have hbc : b = c := by simpa using h2.1
            exact Or.inl (by simpa using hbc ▸ hab)
        · rw [Bool.and_eq_true] at h1
          have hab : a = b := by simpa using h1.1
          subst hab
          rcases h2 with h2 | h2
          · exact Or.inl h2
          · rw [Bool.and_eq_true] at h2
            have hbc : a = c := by simpa using h2.1
            refine Or.inr ?_
            rw [Bool.and_eq_true]
            exact ⟨by simpa using hbc, ih btl ctl h1.2 h2.2⟩

instance : IsTotal String fun a b => lexLe a b = true :=
  ⟨fun a b => by
    unfold lexLe lexLt
    by_cases h : charListLt b.toList a.toList = true
    · right
      rw [charListLt_asymm _ _ h]
      rfl
    · left
      rw [Bool.not_eq_true] at h
      rw [h]
      rfl⟩

instance : IsTrans String fun a b => lexLe a b = true :=
  ⟨fun a b c hab hbc => by
    unfold lexLe lexLt at hab hbc ⊢
    rw [Bool.not_eq_true'] at hab hbc ⊢
    by_cases hca : charListLt c.toList a.toList = true
    · by_cases hbcx : charListLt b.toList c.toList = true
      · exact absurd (charListLt_trans _ _ _ hbcx hca) (by rw [hab]; intro h; cases h)
      · rw [Bool.not_eq_true] at hbcx
        have hbc2 : b.toList = c.toList := charListLt_connex _ _ hbcx hbc
        rw [← hbc2] at hca
        rw [hca] at hab
        cases hab
    · rwa [Bool.not_eq_true] at hca⟩

/-- Trades with the empty sentinel date never enter the per-date grouping. -/
theorem groupTradesByDate_no_empty (trades : List Trade) :
    mapGet (groupTradesByDate trades) "" = none := by
  unfold groupTradesByDate
  suffices h : ∀ (m : List (String × List Trade)), mapGet m "" = none →
      mapGet (trades.foldl (fun m t => if t.tradeDate = "" then m
        else mapUpd m t.tradeDate [] (· ++ [t])) m) "" = none by
    exact h [] rfl
  induction trades with
  | nil => exact fun m hm => hm
  | cons t ts ih =>
    intro m hm
    rw [List.foldl_cons]
    by_cases hd : t.tradeDate = ""
    · rw [if_pos hd]
      exact ih m hm
    · rw [if_neg hd]
      refine ih _ ?_
      rw [mapGet_mapUpd_ne _ _ _ _ _ fun h => hd h.symm]
      exact hm

/-- C7 (amended): the simulation timeline is the deduplicated union of the
trade-date list and the valuation-date list, sorted ascending (lexicographic
equals calendar order for parseable ISO dates); a blotter row whose date
cannot be parsed contributes the empty-string sentinel to the timeline — it
still gets a (trade-less) simulation step — rather than no date, though it
is excluded from the per-date trade groups. -/
theorem timeline_union_sorted :
    (∀ tradeDates historyDates : List String,
      (buildTimeline tradeDates historyDates).Nodup ∧
      (∀ x, x ∈ buildTimeline tradeDates historyDates ↔
        x ∈ tradeDates ∨ x ∈ historyDates)) ∧
    (∀ tradeDates historyDates : List String,
      (buildTimeline tradeDates historyDates).Sorted
        fun a b => lexLe a b = true) ∧
    (∀ trades : List Trade, mapGet (groupTradesByDate trades) "" = none) ∧
    ((parseTradeData [badDateRow] [] allCols fun _ => "r").portfolioHistory.map
      (fun e => e.date)) = [""] := by
  refine ⟨?_, ?_, groupTradesByDate_no_empty, ?_⟩
  · intro tradeDates historyDates
    constructor
    · exact ((List.perm_insertionSort _ _).nodup_iff).mpr
        (nodup_dedupKeepFirst _)
    · intro x
      unfold buildTimeline
      rw [(List.perm_insertionSort _ _).mem_iff, mem_dedupKeepFirst,
        List.mem_append, mem_dedupKeepFirst]
  · intro tradeDates historyDates
    exact List.sorted_insertionSort _ _
  · decide

/-- Counterexample to C7 as stated: a single blotter row with an unparsable
date yields a one-entry timeline (the empty-string sentinel) — the row does
contribute a date-slot to the timeline, instead of none. -/
theorem unparsable_date_row_enters_timeline :
    ((parseTradeBlotter [badDateRow] fun _ => "r").map fun t => t.tradeDate) =
      [""] ∧
    ((parseTradeData [badDateRow] [] allCols fun _ => "r").portfolioHistory.map
      (fun e => e.date)) = [""] ∧
    ¬ ([""] = ([] : List String)) := by
  refine ⟨?_, ?_, ?_⟩
  · decide
  · decide
  · decide

/-! ## C9 : snapshot immutability -/

theorem applyTrade_history (allDates : List String) (dateIdx : ℕ)
    (dailyPriceMap : List (String × List (String × ℚ))) (st : SimState)
    (t : Trade) :
    (applyTrade allDates dateIdx dailyPriceMap st t).portfolioHistory =
      st.portfolioHistory := by
  unfold applyTrade
  dsimp only
  repeat' split
  all_goals rfl

theorem foldl_applyTrade_history (allDates : List String) (dateIdx : ℕ)
    (dailyPriceMap : List (String × List (String × ℚ))) (ts : List Trade)
    (st : SimState) :
    ((ts.foldl (applyTrade allDates dateIdx dailyPriceMap) st).portfolioHistory) =
      st.portfolioHistory := by
  induction ts generalizing st with
  | nil => rfl
  | cons t ts ih =>
    rw [List.foldl_cons, ih, applyTrade_history]

theorem preSnapshotState_history (allDates : List String) (tbd pm)
    (st : SimState) (p : ℕ × String) :
    (preSnapshotState allDates tbd pm st p).portfolioHistory =
      st.portfolioHistory := by
  unfold preSnapshotState
  exact foldl_applyTrade_history _ _ _ _ st

/-- One date step only appends its snapshot to the portfolio history. -/
theorem stepDate_history (allDates : List String) (tbd pm am) (st : SimState)
    (p : ℕ × String) :
    (stepDate allDates tbd pm am st p).portfolioHistory =
      st.portfolioHistory ++ [daySnapshot allDates tbd pm am st p] := by
  unfold stepDate daySnapshot
  dsimp only
  rw [preSnapshotState_history]

/-- A fold of date steps only appends to the portfolio history. -/
theorem foldl_stepDate_history (allDates : List String) (tbd pm am)
    (ps : List (ℕ × String)) (st : SimState) :
    ∃ rest, (ps.foldl (stepDate allDates tbd pm am) st).portfolioHistory =
      st.portfolioHistory ++ rest := by
  induction ps generalizing st with
  | nil => exact ⟨[], by simp⟩
  | cons p ps ih =>
    obtain ⟨rest, hrest⟩ := ih (stepDate allDates tbd pm am st p)
    refine ⟨daySnapshot allDates tbd pm am st p :: rest, ?_⟩
    rw [List.foldl_cons, hrest, stepDate_history]
    simp

/-- C9: every `PortfolioState` snapshot is an independent value taken at the
moment it is appended — a date step appends exactly its own snapshot (whose
date, holdings, cash and AUM are computed from the state at that instant),
and every later run of steps leaves all previously appended snapshots
unchanged (the earlier history is a strict prefix of the later history). -/
theorem snapshots_immutable_once_appended :
    (∀ (allDates : List String) (tbd : List (String × List Trade))
      (pm : List (String × List (String × ℚ))) (am : List (String × ℚ))
      (st : SimState) (p : ℕ × String),
      (stepDate allDates tbd pm am st p).portfolioHistory =
        st.portfolioHistory ++ [daySnapshot allDates tbd pm am st p]) ∧
    (∀ (allDates : List String) (trades : List Trade)
      (pm : List (String × List (String × ℚ))) (am : List (String × ℚ))
      (n : ℕ),
      ∃ rest,
        (simulatePortfolio allDates trades pm am).portfolioHistory =
          ((allDates.enum.take n).foldl
            (stepDate allDates (groupTradesByDate trades) pm am)
            ⟨[], [], 0, []⟩).portfolioHistory ++ rest) := by
  constructor
  · exact stepDate_history
  · intro allDates trades pm am n
    unfold simulatePortfolio
    conv in allDates.enum => rw [← List.take_append_drop n allDates.enum]
    rw [List.foldl_append]
    exact foldl_stepDate_history _ _ _ _ _ _

/-! ## C10 : other/cash transaction types -/

/-- C10: applying a trade with a non-empty ticker whose type is neither
buy-like nor sell-like adds its net proceeds to cash, leaves the ticker's
share count, tax lots and realized P&L unchanged (creating a zeroed position
state on first sight) and leaves every other ticker's position state
untouched, while ensuring the ticker has a holdings entry; consequently a
ticker whose only trade is such a cash-type trade still appears in the
finalized Position list with zero shares. -/
theorem cash_type_trade_frame :
    (∀ (allDates : List String) (dateIdx : ℕ)
      (pm : List (String × List (String × ℚ))) (st : SimState) (t : Trade),
      ¬ t.ticker = "" → t.txnType ∉ buyTypes → t.txnType ∉ sellTypes →
      (applyTrade allDates dateIdx pm st t).currentCash =
          st.currentCash + t.netProceeds ∧
      (∃ ps', mapGet (applyTrade allDates dateIdx pm st t).positionStates
            t.ticker = some ps' ∧
        (ps'.shares, ps'.lots, ps'.realizedPnL) =
          (match mapGet st.positionStates t.ticker with
           | some ps => (ps.shares, ps.lots, ps.realizedPnL)
           | none => (0, [], 0))) ∧
      (mapGet (applyTrade allDates dateIdx pm st t).currentHoldings
          t.ticker).isSome = true ∧
      (∀ k, k ≠ t.ticker →
        mapGet (applyTrade allDates dateIdx pm st t).positionStates k =
          mapGet st.positionStates k)) ∧
    ((parseTradeData [cashRow] [] allCols fun _ => "r").positions.map
        (fun p => (p.ticker, p.shares)) = [("T", 0)] ∧
      (parseTradeData [cashRow] [] allCols fun _ => "r").portfolioHistory.map
        (fun e => e.cash) = [7]) := by
  constructor
  · intro allDates dateIdx pm st t ht hb hsell
    unfold applyTrade
    dsimp only
    rw [if_neg ht]
    simp only [hb, if_false, hsell]
    by_cases hp : 0 < t.price
    · rw [if_pos hp]
      refine ⟨rfl, ?_, ?_, ?_⟩
      · refine ⟨(mapGet st.positionStates t.ticker).getD
          (freshPosState (startHistoryFor allDates dateIdx pm t)),
          mapGet_ensurePosState_self _ _ _, ?_⟩
        cases hps : mapGet st.positionStates t.ticker with
        | some ps => simp [hps]
        | none => simp [hps, freshPosState]
      · rw [mapGet_mapUpd_self]
        rfl
      · intro k hk
        exact mapGet_ensurePosState_ne _ _ _ _ hk
    · rw [if_neg hp]
      refine ⟨rfl, ?_, ?_, ?_⟩
      · refine ⟨(mapGet st.positionStates t.ticker).getD
          (freshPosState (startHistoryFor allDates dateIdx pm t)),
          mapGet_ensurePosState_self _ _ _, ?_⟩
        cases hps : mapGet st.positionStates t.ticker with
        | some ps => simp [hps]
        | none => simp [hps, freshPosState]
      · exact mapGet_ensureHolding_self _ _
      · intro k hk
        exact mapGet_ensurePosState_ne _ _ _ _ hk
  · exact ⟨by decide, by decide⟩

/-- Witness for the quantified part of `cash_type_trade_frame`: one
"Dividend" trade on an empty state. -/
theorem cash_type_trade_frame_witness :
    (¬ (plainTrade "T" "Dividend" "2024-01-02" 5 0 7).ticker = "") ∧
    ((plainTrade "T" "Dividend" "2024-01-02" 5 0 7).txnType ∉ buyTypes) ∧
    ((plainTrade "T" "Dividend" "2024-01-02" 5 0 7).txnType ∉ sellTypes) ∧
    ((applyTrade [] 0 [] ⟨[], [], 0, []⟩
        (plainTrade "T" "Dividend" "2024-01-02" 5 0 7)).currentCash =
          (⟨[], [], 0, []⟩ : SimState).currentCash +
            (plainTrade "T" "Dividend" "2024-01-02" 5 0 7).netProceeds ∧
      (∃ ps', mapGet (applyTrade [] 0 [] ⟨[], [], 0, []⟩
            (plainTrade "T" "Dividend" "2024-01-02" 5 0 7)).positionStates
            (plainTrade "T" "Dividend" "2024-01-02" 5 0 7).ticker = some ps' ∧
        (ps'.shares, ps'.lots, ps'.realizedPnL) =
          (match mapGet (⟨[], [], 0, []⟩ : SimState).positionStates
              (plainTrade "T" "Dividend" "2024-01-02" 5 0 7).ticker with
           | some ps => (ps.shares, ps.lots, ps.realizedPnL)
           | none => (0, [], 0))) ∧
      (mapGet (applyTrade [] 0 [] ⟨[], [], 0, []⟩
          (plainTrade "T" "Dividend" "2024-01-02" 5 0 7)).currentHoldings
          (plainTrade "T" "Dividend" "2024-01-02" 5 0 7).ticker).isSome = true ∧
      (∀ k, k ≠ (plainTrade "T" "Dividend" "2024-01-02" 5 0 7).ticker →
        mapGet (applyTrade [] 0 [] ⟨[], [], 0, []⟩
            (plainTrade "T" "Dividend" "2024-01-02" 5 0 7)).positionStates k =
          mapGet (⟨[], [], 0, []⟩ : SimState).positionStates k)) :=
  ⟨by decide, by decide, by decide,
   cash_type_trade_frame.1 [] 0 [] ⟨[], [], 0, []⟩
     (plainTrade "T" "Dividend" "2024-01-02" 5 0 7)
     (by decide) (by decide) (by decide)⟩

/-! ## C6 : materiality flag -/

/-- Every value in the folded finalize map comes from one of the entries. -/
theorem mapValues_foldl_mapSet {κ α β : Type} [DecidableEq κ] (f : κ × α → β)
    (l : List (κ × α)) (m : List (κ × β)) (x)
    (h : x ∈ mapValues (l.foldl (fun acc q => mapSet acc q.1 (f q)) m)) :
    x ∈ mapValues m ∨ ∃ q ∈ l, x = f q := by
  induction l generalizing m with
  | nil => exact Or.inl (by simpa using h)
  | cons q qs ih =>
    rw [List.foldl_cons] at h
    rcases ih _ h with h' | h'
    · rcases mapValues_mapSet_sub _ _ _ _ h' with h'' | h''
      · exact Or.inr ⟨q, by simp, h''⟩
      · exact Or.inl h''
    · obtain ⟨q', hq', hx⟩ := h'
      exact Or.inr ⟨q', by simp [hq'], hx⟩

/-- Every finalized position is `finalizeOne` of some position-state entry. -/
theorem finalizePositions_mem (states : List (String × PosState))
    (hold : List (String × Holding)) (tr : List Trade)
    (lh fh : List (String × String)) (pos : Position)
    (h : pos ∈ finalizePositions states hold tr lh fh) :
    ∃ q ∈ states, pos = finalizeOne q.1 q.2 hold tr lh fh := by
  unfold finalizePositions at h
  rcases mapValues_foldl_mapSet (fun q => finalizeOne q.1 q.2 hold tr lh fh)
    states [] pos h with h' | h'
  · simp [mapValues] at h'
  · exact h'

theorem lt_imp_iff_le_or {x y : ℚ} {p : Prop} : (x < y → p) ↔ (y ≤ x ∨ p) := by
  constructor
  · intro h
    rcases lt_or_le x y with h1 | h1
    · exact Or.inr (h h1)
    · exact Or.inl h1
  · intro h h1
    rcases h with h | h
    · exact absurd h1 (not_lt.mpr h)
    · exact h

/-- The materiality flag of one finalized position, as an iff. -/
theorem finalizeOne_small_iff (k : String) (ps : PosState)
    (hold : List (String × Holding)) (tr : List Trade)
    (lh fh : List (String × String)) :
    ((finalizeOne k ps hold tr lh fh).isSmallPosition = false) ↔
      (1 ≤ (finalizeOne k ps hold tr lh fh).avgSizePercentAUM ∨
        epsHeld < |(finalizeOne k ps hold tr lh fh).shares|) := by
  simp only [finalizeOne]
  simp [Bool.not_eq_true', decide_eq_true_iff]
  exact lt_imp_iff_le_or

/-- C6: a finalized position is significant (flag false) iff its average
size-percent is at least 1.0 or its current share count exceeds 1e-5 in
absolute value; in particular average size exactly 1.0 with zero shares is
significant. -/
theorem small_position_flag :
    (∀ (states : List (String × PosState)) (hold : List (String × Holding))
      (tr : List Trade) (lh fh : List (String × String)) (pos : Position),
      pos ∈ finalizePositions states hold tr lh fh →
      (pos.isSmallPosition = false ↔
        (1 ≤ pos.avgSizePercentAUM ∨ epsHeld < |pos.shares|))) ∧
    ((finalizePositions [("T", boundaryPos)] [] [] [] []).map
        (fun p => (p.avgSizePercentAUM, p.shares, p.isSmallPosition)) =
      [(1, 0, false)]) := by
  constructor
  · intro states hold tr lh fh pos h
    obtain ⟨q, _, hq⟩ := finalizePositions_mem states hold tr lh fh pos h
    rw [hq]
    exact finalizeOne_small_iff q.1 q.2 hold tr lh fh
  · decide

/-- Witness for the quantified part of `small_position_flag` at the
boundary input (average size 1.0, zero shares). -/
theorem small_position_flag_witness :
    (finalizeOne "T" boundaryPos [] [] [] [] ∈
      finalizePositions [("T", boundaryPos)] [] [] [] []) ∧
    ((finalizeOne "T" boundaryPos [] [] [] []).isSmallPosition = false ↔
      (1 ≤ (finalizeOne "T" boundaryPos [] [] [] []).avgSizePercentAUM ∨
        epsHeld < |(finalizeOne "T" boundaryPos [] [] [] []).shares|)) :=
  ⟨by decide,
   small_position_flag.1 [("T", boundaryPos)] [] [] [] []
     (finalizeOne "T" boundaryPos [] [] [] []) (by decide)⟩

/-! ## C4 : AUM determination -/

/-- The appended snapshot's AUM: a nonzero valuation-history total is used
as-is; an absent or zero total falls back to Σ(shares × price) + cash over
the snapshot's own holdings. -/
theorem daySnapshot_aum (allDates : List String)
    (tbd : List (String × List Trade))
    (pm : List (String × List (String × ℚ))) (am : List (String × ℚ))
    (st : SimState) (p : ℕ × String) :
    (∀ v, mapGet am (daySnapshot allDates tbd pm am st p).date = some v →
      ¬ v = 0 → (daySnapshot allDates tbd pm am st p).aum = v) ∧
    ((mapGet am (daySnapshot allDates tbd pm am st p).date = none ∨
      mapGet am (daySnapshot allDates tbd pm am st p).date = some 0) →
      (daySnapshot allDates tbd pm am st p).aum =
        sumHoldingsValue (daySnapshot allDates tbd pm am st p).holdings +
          (daySnapshot allDates tbd pm am st p).cash) := by
  dsimp only [daySnapshot]
  constructor
  · intro v hv hv0
    unfold determineAum
    rw [hv]
    simp [hv0]
  · intro h
    unfold determineAum
    rcases h with h | h
    · rw [h]
    · rw [h]
      simp

/-- The AUM property of `daySnapshot_aum` holds for every snapshot in a fold
of date steps, given it holds for the starting history. -/
theorem foldl_stepDate_aum (allDates : List String)
    (tbd : List (String × List Trade))
    (pm : List (String × List (String × ℚ))) (am : List (String × ℚ))
    (ps : List (ℕ × String)) (st : SimState)
    (hst : ∀ e ∈ st.portfolioHistory,
      (∀ v, mapGet am e.date = some v → ¬ v = 0 → e.aum = v) ∧
      ((mapGet am e.date = none ∨ mapGet am e.date = some 0) →
        e.aum = sumHoldingsValue e.holdings + e.cash)) :
    ∀ e ∈ (ps.foldl (stepDate allDates tbd pm am) st).portfolioHistory,
      (∀ v, mapGet am e.date = some v → ¬ v = 0 → e.aum = v) ∧
      ((mapGet am e.date = none ∨ mapGet am e.date = some 0) →
        e.aum = sumHoldingsValue e.holdings + e.cash) := by
  induction ps generalizing st with
  | nil => exact hst
  | cons p ps ih =>
    rw [List.foldl_cons]
    refine ih (stepDate allDates tbd pm am st p) ?_
    intro e he
    rw [stepDate_history] at he
    rcases List.mem_append.mp he with he | he
    · exact hst e he
    · rw [List.mem_singleton] at he
      subst he
      exact daySnapshot_aum allDates tbd pm am st p

/-- C4 (amended): every simulated day's AUM is the valuation-history total
when that total exists and is nonzero; when the entry is absent — or present
but zero, which the JS falsy test treats as absent — the day's AUM is
Σ(shares × price) over the day's holdings plus the cash balance. -/
theorem aum_uses_history_total_or_fallback
    (allDates : List String) (trades : List Trade)
    (pm : List (String × List (String × ℚ))) (am : List (String × ℚ))
    (e : PortfolioState)
    (he : e ∈ (simulatePortfolio allDates trades pm am).portfolioHistory) :
    (∀ v, mapGet am e.date = some v → ¬ v = 0 → e.aum = v) ∧
    ((mapGet am e.date = none ∨ mapGet am e.date = some 0) →
      e.aum = sumHoldingsValue e.holdings + e.cash) := by
  unfold simulatePortfolio at he
  exact foldl_stepDate_aum _ _ _ _ _ _ (by intro e h; cases h) e he

/-- Counterexample to C4 as stated: the valuation history contributed the
AUM total `0` for 2024-01-02, but the simulated day's AUM is the computed
fallback `50`, not the contributed total. -/
theorem aum_zero_history_total_ignored :
    mapGet [("2024-01-02", (0 : ℚ))] "2024-01-02" = some 0 ∧
    runZeroAum.portfolioHistory.map (fun e => e.aum) = [50] ∧
    ¬ ((50 : ℚ) = 0) :=
  ⟨by decide, by decide, by norm_num⟩

/-- Witness for `aum_uses_history_total_or_fallback`: the single snapshot of
`runZeroAum` (whose AUM entry is present but zero, hence the fallback). -/
theorem aum_uses_history_total_or_fallback_witness :
    ∃ e, (e ∈ (simulatePortfolio ["2024-01-02"]
        [plainTrade "A" "Buy" "2024-01-02" 10 5 0] []
        [("2024-01-02", 0)]).portfolioHistory) ∧
      ((mapGet [("2024-01-02", (0:ℚ))] e.date = none ∨
        mapGet [("2024-01-02", (0:ℚ))] e.date = some 0) →
        e.aum = sumHoldingsValue e.holdings + e.cash) := by
  refine ⟨⟨"2024-01-02", [("A", ⟨10, 5⟩)], 0, 50⟩, by decide, ?_⟩
  exact (aum_uses_history_total_or_fallback ["2024-01-02"]
    [plainTrade "A" "Buy" "2024-01-02" 10 5 0] [] [("2024-01-02", 0)]
    ⟨"2024-01-02", [("A", ⟨10, 5⟩)], 0, 50⟩ (by decide)).2

/-! ## C8 : idempotence modulo the random identifier fallback -/

theorem eraseId_default : eraseId default = default := rfl

theorem mapSet_map {κ α β : Type} [DecidableEq κ] (h : α → β)
    (m : List (κ × α)) (k : κ) (v : α) :
    mapSet (m.map (Prod.map id h)) k (h v) = (mapSet m k v).map (Prod.map id h) := by
  induction m with
  | nil => rfl
  | cons p rest ih =>
    obtain ⟨a, b⟩ := p
    rw [List.map_cons]
    rw [show Prod.map id h (a, b) = (a, h b) from rfl, mapSet_cons, mapSet_cons]
    by_cases ha : a = k
    · rw [if_pos ha, if_pos ha]
      rfl
    · rw [if_neg ha, if_neg ha, List.map_cons, ih]
      rfl

theorem mapUpd_map {κ α β : Type} [DecidableEq κ] (h : α → β)
    (m : List (κ × α)) (k : κ) (d : α) (f : α → α) (g : β → β)
    (hg : ∀ a, g (h a) = h (f a)) :
    mapUpd (m.map (Prod.map id h)) k (h d) g = (mapUpd m k d f).map (Prod.map id h) := by
  induction m with
  | nil =>
    simp only [List.map_nil, mapUpd, List.map_cons]
    rw [hg]
    rfl
  | cons p rest ih =>
    obtain ⟨a, b⟩ := p
    rw [List.map_cons]
    rw [show Prod.map id h (a, b) = (a, h b) from rfl, mapUpd_cons, mapUpd_cons]
    by_cases ha : a = k
    · rw [if_pos ha, if_pos ha, List.map_cons, hg]
      rfl
    · rw [if_neg ha, if_neg ha, List.map_cons, ih]
      rfl

theorem mapGet_map {κ α β : Type} [DecidableEq κ] (h : α → β)
    (m : List (κ × α)) (k : κ) :
    mapGet (m.map (Prod.map id h)) k = (mapGet m k).map h := by
  induction m with
  | nil => rfl
  | cons p rest ih =>
    obtain ⟨a, b⟩ := p
    rw [List.map_cons]
    rw [show Prod.map id h (a, b) = (a, h b) from rfl, mapGet_cons, mapGet_cons]
    by_cases ha : a = k
    · rw [if_pos ha, if_pos ha]
      rfl
    · rw [if_neg ha, if_neg ha, ih]

theorem mapValues_map {κ α β : Type} (h : α → β) (m : List (κ × α)) :
    mapValues (m.map (Prod.map id h)) = (mapValues m).map h := by
  unfold mapValues
  rw [List.map_map, List.map_map]
  rfl

theorem snd_mem_of_mem_enumFrom {α : Type} (l : List α) (n : ℕ) (p : ℕ × α)
    (h : p ∈ l.enumFrom n) : p.2 ∈ l := by
  induction l generalizing n with
  | nil => cases h
  | cons a tl ih =>
    rcases List.mem_cons.mp h with h1 | h1
    · rw [h1]
      exact List.mem_cons_self _ _
    · exact List.mem_cons_of_mem _ (ih _ h1)

/-- Erasing identifiers commutes with the blotter, pointwise in the rows. -/
theorem parseTradeBlotter_eraseId (rows : List RawTradeRow) (rnd1 rnd2 : ℕ → String) :
    (parseTradeBlotter rows rnd1).map eraseId =
      (parseTradeBlotter rows rnd2).map eraseId := by
  unfold parseTradeBlotter
  rw [List.map_filterMap, List.map_filterMap]
  apply List.filterMap_congr
  intro p _
  dsimp only
  repeat' split
  all_goals rfl

/-- When every kept row has an explicit identifier the blotter ignores the
random source entirely. -/
theorem parseTradeBlotter_det (rows : List RawTradeRow) (rnd1 rnd2 : ℕ → String)
    (h : ∀ r ∈ rows, rowIdStr r ≠ none) :
    parseTradeBlotter rows rnd1 = parseTradeBlotter rows rnd2 := by
  unfold parseTradeBlotter
  apply List.filterMap_congr
  intro p hp
  have hrow : rowIdStr p.2 ≠ none :=
    h p.2 (snd_mem_of_mem_enumFrom rows 0 p hp)
  dsimp only
  repeat' split
  all_goals try rfl
  cases hid : rowIdStr p.2 with
  | none => exact absurd hid hrow
  | some s => rfl

theorem convertArgx_eraseId (t : Trade) :
    convertArgx (eraseId t) = eraseId (convertArgx t) := by
  obtain ⟨tid, de, ti, td, ty, q, pr, cu, np, fe, co⟩ := t
  unfold convertArgx eraseId
  dsimp only
  split
  all_goals rfl

theorem consTrade_eraseGroupIds (d ty : String) (g : ArgxGroup) :
    consTrade d ty (eraseGroupIds g) = consTrade d ty g := by
  unfold consTrade eraseGroupIds
  dsimp only
  cases g.trades with
  | nil => rfl
  | cons t0 tl =>
    dsimp only [List.map_cons, List.headI]
    rw [List.map_map, List.map_map, List.map_map]
    rfl

theorem orderedInsert_map {α β : Type} (f : α → β) (r : α → α → Prop)
    (s : β → β → Prop) [DecidableRel r] [DecidableRel s]
    (hrs : ∀ a b, s (f a) (f b) ↔ r a b) (a : α) (l : List α) :
    (l.orderedInsert r a).map f = (l.map f).orderedInsert s (f a) := by
  induction l with
  | nil => rfl
  | cons b tl ih =>
    simp only [List.orderedInsert, List.map_cons]
    by_cases h : r a b
    · rw [if_pos h, if_pos ((hrs a b).mpr h)]
      rfl
    · rw [if_neg h, if_neg (fun hs => h ((hrs a b).mp hs)), List.map_cons, ih]

theorem insertionSort_map {α β : Type} (f : α → β) (r : α → α → Prop)
    (s : β → β → Prop) [DecidableRel r] [DecidableRel s]
    (hrs : ∀ a b, s (f a) (f b) ↔ r a b) (l : List α) :
    (l.insertionSort r).map f = (l.map f).insertionSort s := by
  induction l with
  | nil => rfl
  | cons a tl ih =>
    simp only [List.insertionSort, List.map_cons]
    rw [orderedInsert_map f r s hrs, ih]

theorem sortTradesByDate_map_eraseId (L : List Trade) :
    (sortTradesByDate L).map eraseId = sortTradesByDate (L.map eraseId) := by
  unfold sortTradesByDate
  exact insertionSort_map eraseId
    (fun a b : Trade => lexLe a.tradeDate b.tradeDate = true)
    (fun a b : Trade => lexLe a.tradeDate b.tradeDate = true)
    (fun a b => Iff.rfl) L

theorem filter_eraseId (p : Trade → Bool) (hp : ∀ t, p (eraseId t) = p t)
    (A : List Trade) :
    (A.map eraseId).filter p = (A.filter p).map eraseId := by
  rw [List.filter_map]
  congr 1
  exact List.filter_congr fun t _ => hp t

theorem foldl_argxInsert_map (ts : List Trade)
    (m : List ((String × String) × ArgxGroup)) :
    (ts.map eraseId).foldl argxInsert (m.map (Prod.map id eraseGroupIds)) =
      (ts.foldl argxInsert m).map (Prod.map id eraseGroupIds) := by
  induction ts generalizing m with
  | nil => rfl
  | cons t tl ih =>
    rw [List.map_cons, List.foldl_cons, List.foldl_cons]
    have hg : ∀ a : ArgxGroup,
        (fun g => (⟨g.shares + t.quantity, g.cashFlowUsd + t.quantity * t.price,
          g.trades ++ [eraseId t]⟩ : ArgxGroup)) (eraseGroupIds a) =
        eraseGroupIds ((fun g => (⟨g.shares + t.quantity,
          g.cashFlowUsd + t.quantity * t.price,
          g.trades ++ [t]⟩ : ArgxGroup)) a) := by
      intro a
      unfold eraseGroupIds
      dsimp only
      rw [List.map_append]
      rfl
    have hstep : argxInsert (m.map (Prod.map id eraseGroupIds)) (eraseId t) =
        (argxInsert m t).map (Prod.map id eraseGroupIds) :=
      mapUpd_map eraseGroupIds m (argxKey t) ⟨0, 0, []⟩
        (fun g => (⟨g.shares + t.quantity, g.cashFlowUsd + t.quantity * t.price,
          g.trades ++ [t]⟩ : ArgxGroup))
        (fun g => (⟨g.shares + t.quantity, g.cashFlowUsd + t.quantity * t.price,
          g.trades ++ [eraseId t]⟩ : ArgxGroup)) hg
    rw [hstep]
    exact ih _

theorem argxGroups_map_eraseId (ts : List Trade) :
    argxGroups (ts.map eraseId) =
      (argxGroups ts).map (Prod.map id eraseGroupIds) := by
  unfold argxGroups
  exact foldl_argxInsert_map ts []

theorem eraseGroupIds_shares (g : ArgxGroup) :
    (eraseGroupIds g).shares = g.shares := rfl

theorem consolidate_canon (A : List Trade) :
    (consolidateArgxTrades A).map eraseId = consolidateErased (A.map eraseId) := by
  unfold consolidateArgxTrades consolidateErased consolidatedOf
  dsimp only
  rw [sortTradesByDate_map_eraseId, List.map_append]
  congr 1
  congr 1
  · exact (filter_eraseId (fun t => decide (¬ t.ticker = "ARGX")) (fun t => rfl) A).symm
  · rw [List.map_filterMap]
    rw [filter_eraseId (fun t => t.ticker = "ARGX") (fun t => rfl) A]
    rw [List.map_map]
    rw [show ((convertArgx ∘ eraseId) : Trade → Trade) = eraseId ∘ convertArgx from
      funext fun t => convertArgx_eraseId t]
    rw [← List.map_map]
    rw [argxGroups_map_eraseId, List.filterMap_map]
    apply List.filterMap_congr
    intro p _
    obtain ⟨⟨d, ty⟩, g⟩ := p
    dsimp only [Function.comp, Prod.map]
    rw [eraseGroupIds_shares]
    by_cases h : 0 < g.shares
    · rw [if_pos h, if_pos h, consTrade_eraseGroupIds]
      rfl
    · rw [if_neg h, if_neg h]
      rfl

theorem consolidateArgxTrades_congr (A B : List Trade)
    (h : A.map eraseId = B.map eraseId) :
    (consolidateArgxTrades A).map eraseId =
      (consolidateArgxTrades B).map eraseId := by
  rw [consolidate_canon, consolidate_canon, h]

theorem applyTrade_eraseId (ad : List String) (di : ℕ)
    (pm : List (String × List (String × ℚ))) (st : SimState) (t : Trade) :
    applyTrade ad di pm st (eraseId t) = applyTrade ad di pm st t := by
  obtain ⟨tid, de, ti, td, ty, q, pr, cu, np, fe, co⟩ := t
  rfl

theorem foldl_applyTrade_eraseId (ts : List Trade) (ad : List String) (di : ℕ)
    (pm : List (String × List (String × ℚ))) (st : SimState) :
    (ts.map eraseId).foldl (applyTrade ad di pm) st =
      ts.foldl (applyTrade ad di pm) st := by
  induction ts generalizing st with
  | nil => rfl
  | cons t tl ih =>
    rw [List.map_cons, List.foldl_cons, List.foldl_cons, applyTrade_eraseId]
    exact ih _

theorem groupTrades_foldl_map (ts : List Trade) (m : List (String × List Trade)) :
    (ts.map eraseId).foldl
      (fun m t => if t.tradeDate = "" then m else mapUpd m t.tradeDate [] (· ++ [t]))
      (m.map (Prod.map id (List.map eraseId))) =
    (ts.foldl
      (fun m t => if t.tradeDate = "" then m else mapUpd m t.tradeDate [] (· ++ [t]))
      m).map (Prod.map id (List.map eraseId)) := by
  induction ts generalizing m with
  | nil => rfl
  | cons t tl ih =>
    rw [List.map_cons, List.foldl_cons, List.foldl_cons]
    rw [show (eraseId t).tradeDate = t.tradeDate from rfl]
    by_cases h : t.tradeDate = ""
    · rw [if_pos h, if_pos h]
      exact ih m
    · rw [if_neg h, if_neg h]
      have hstep : mapUpd (m.map (Prod.map id (List.map eraseId))) t.tradeDate []
          (· ++ [eraseId t]) =
          (mapUpd m t.tradeDate [] (· ++ [t])).map (Prod.map id (List.map eraseId)) :=
        mapUpd_map (List.map eraseId) m t.tradeDate [] (· ++ [t]) (· ++ [eraseId t])
          (fun a => (List.map_append eraseId a [t]).symm)
      rw [hstep]
      exact ih _

theorem groupTradesByDate_map_eraseId (ts : List Trade) :
    groupTradesByDate (ts.map eraseId) =
      (groupTradesByDate ts).map (Prod.map id (List.map eraseId)) := by
  unfold groupTradesByDate
  exact groupTrades_foldl_map ts []

theorem preSnapshotState_eraseId (ad : List String)
    (pm : List (String × List (String × ℚ))) (ts : List Trade) (st : SimState)
    (p : ℕ × String) :
    preSnapshotState ad (groupTradesByDate (ts.map eraseId)) pm st p =
      preSnapshotState ad (groupTradesByDate ts) pm st p := by
  unfold preSnapshotState
  dsimp only
  rw [groupTradesByDate_map_eraseId]
  have hget : (mapGet ((groupTradesByDate ts).map (Prod.map id (List.map eraseId)))
      p.2).getD [] = ((mapGet (groupTradesByDate ts) p.2).getD []).map eraseId := by
    rw [mapGet_map]
    cases mapGet (groupTradesByDate ts) p.2 <;> rfl
  rw [hget, foldl_applyTrade_eraseId]

theorem stepDate_eraseId (ad : List String)
    (pm : List (String × List (String × ℚ))) (am : List (String × ℚ))
    (ts : List Trade) (st : SimState) (p : ℕ × String) :
    stepDate ad (groupTradesByDate (ts.map eraseId)) pm am st p =
      stepDate ad (groupTradesByDate ts) pm am st p := by
  unfold stepDate
  rw [preSnapshotState_eraseId]

theorem simulatePortfolio_eraseId (ad : List String) (ts : List Trade)
    (pm : List (String × List (String × ℚ))) (am : List (String × ℚ)) :
    simulatePortfolio ad (ts.map eraseId) pm am = simulatePortfolio ad ts pm am := by
  unfold simulatePortfolio
  dsimp only
  have hstep : stepDate ad (groupTradesByDate (ts.map eraseId)) pm am =
      stepDate ad (groupTradesByDate ts) pm am := by
    funext st p
    exact stepDate_eraseId ad pm am ts st p
  rw [hstep]

theorem getLastD_map_eraseId (l : List Trade) (d : Trade) :
    (l.map eraseId).getLastD (eraseId d) = eraseId (l.getLastD d) := by
  induction l generalizing d with
  | nil => rfl
  | cons a tl ih =>
    rw [List.map_cons, List.getLastD_cons, List.getLastD_cons]
    exact ih a

theorem erase_finalizeOne (k : String) (ps : PosState)
    (ch : List (String × Holding)) (C : List Trade)
    (lm fm : List (String × String)) :
    erasePosIds (finalizeOne k ps ch C lm fm) =
      finalizeOne k ps ch (C.map eraseId) lm fm := by
  have hP : (C.map eraseId).filter (fun t => t.ticker = k) =
      (C.filter (fun t => t.ticker = k)).map eraseId :=
    filter_eraseId (fun t => decide (t.ticker = k)) (fun t => rfl) C
  have hempty : ((C.filter (fun t => t.ticker = k)).map eraseId).isEmpty =
      (C.filter (fun t => t.ticker = k)).isEmpty := by
    cases C.filter (fun t => t.ticker = k) <;> rfl
  have hhead : ((C.filter (fun t => t.ticker = k)).map eraseId).headI.tradeDate =
      (C.filter (fun t => t.ticker = k)).headI.tradeDate := by
    cases C.filter (fun t => t.ticker = k) <;> rfl
  have hlast : (((C.filter (fun t => t.ticker = k)).map eraseId).getLastD
        default).tradeDate =
      ((C.filter (fun t => t.ticker = k)).getLastD default).tradeDate := by
    rw [show ((C.filter (fun t => t.ticker = k)).map eraseId).getLastD default =
        eraseId ((C.filter (fun t => t.ticker = k)).getLastD default) from
      getLastD_map_eraseId (C.filter (fun t => t.ticker = k)) default]
    rfl
  simp only [finalizeOne, erasePosIds]
  rw [hP, hempty, hhead, hlast]

theorem foldl_finalize_map (ch : List (String × Holding)) (C : List Trade)
    (lm fm : List (String × String)) (pstates : List (String × PosState))
    (m : List (String × Position)) :
    pstates.foldl
      (fun m p => mapSet m p.1 (finalizeOne p.1 p.2 ch (C.map eraseId) lm fm))
      (m.map (Prod.map id erasePosIds)) =
    (pstates.foldl
      (fun m p => mapSet m p.1 (finalizeOne p.1 p.2 ch C lm fm)) m).map
      (Prod.map id erasePosIds) := by
  induction pstates generalizing m with
  | nil => rfl
  | cons q tl ih =>
    rw [List.foldl_cons, List.foldl_cons]
    have hstep : mapSet (m.map (Prod.map id erasePosIds)) q.1
        (finalizeOne q.1 q.2 ch (C.map eraseId) lm fm) =
        (mapSet m q.1 (finalizeOne q.1 q.2 ch C lm fm)).map
          (Prod.map id erasePosIds) := by
      rw [← erase_finalizeOne]
      exact mapSet_map erasePosIds m q.1 _
    rw [hstep]
    exact ih _

theorem finalizePositions_map_erase (pstates : List (String × PosState))
    (ch : List (String × Holding)) (C : List Trade)
    (lm fm : List (String × String)) :
    (finalizePositions pstates ch C lm fm).map erasePosIds =
      finalizePositions pstates ch (C.map eraseId) lm fm := by
  unfold finalizePositions
  rw [show (pstates.foldl
      (fun m p => mapSet m p.1 (finalizeOne p.1 p.2 ch (C.map eraseId) lm fm)) []) =
      (pstates.foldl
        (fun m p => mapSet m p.1 (finalizeOne p.1 p.2 ch C lm fm)) []).map
        (Prod.map id erasePosIds) from foldl_finalize_map ch C lm fm pstates []]
  exact (mapValues_map _ _).symm

theorem parseTradeData_trades (rows : List RawTradeRow) (hists : List HistRow)
    (cols : HistCols) (rnd : ℕ → String) :
    (parseTradeData rows hists cols rnd).trades =
      consolidateArgxTrades (parseTradeBlotter rows rnd) := rfl

theorem parseTradeData_portfolioHistory (rows : List RawTradeRow)
    (hists : List HistRow) (cols : HistCols) (rnd : ℕ → String) :
    (parseTradeData rows hists cols rnd).portfolioHistory =
      (simulatePortfolio
        (buildTimeline ((consolidateArgxTrades (parseTradeBlotter rows rnd)).map
          (fun t => t.tradeDate)) (parseHistorySheet hists cols).historyDates)
        (consolidateArgxTrades (parseTradeBlotter rows rnd))
        (parseHistorySheet hists cols).dailyPriceMap
        (parseHistorySheet hists cols).dailyAumMap).portfolioHistory := rfl

theorem parseTradeData_positions (rows : List RawTradeRow) (hists : List HistRow)
    (cols : HistCols) (rnd : ℕ → String) :
    (parseTradeData rows hists cols rnd).positions =
      finalizePositions
        (simulatePortfolio
          (buildTimeline ((consolidateArgxTrades (parseTradeBlotter rows rnd)).map
            (fun t => t.tradeDate)) (parseHistorySheet hists cols).historyDates)
          (consolidateArgxTrades (parseTradeBlotter rows rnd))
          (parseHistorySheet hists cols).dailyPriceMap
          (parseHistorySheet hists cols).dailyAumMap).positionStates
        (simulatePortfolio
          (buildTimeline ((consolidateArgxTrades (parseTradeBlotter rows rnd)).map
            (fun t => t.tradeDate)) (parseHistorySheet hists cols).historyDates)
          (consolidateArgxTrades (parseTradeBlotter rows rnd))
          (parseHistorySheet hists cols).dailyPriceMap
          (parseHistorySheet hists cols).dailyAumMap).currentHoldings
        (consolidateArgxTrades (parseTradeBlotter rows rnd))
        (parseHistorySheet hists cols).lastHistoryDateMap
        (parseHistorySheet hists cols).firstHistoryDateMap := rfl

/-- C8.  Running the full pipeline twice on identical input tables yields the
same `PortfolioState` list, the same `Trade` list up to the trade identifier,
and the same `Position` list up to the trade identifiers of the trades stored
inside each position; when every kept blotter row carries an explicit
identifier (so the random fallback identifier is never consulted) the two
runs are byte-identical. -/
theorem pipeline_idempotent_mod_ids (rows : List RawTradeRow)
    (hists : List HistRow) (cols : HistCols) (rnd1 rnd2 : ℕ → String) :
    (parseTradeData rows hists cols rnd1).portfolioHistory =
        (parseTradeData rows hists cols rnd2).portfolioHistory ∧
    (parseTradeData rows hists cols rnd1).trades.map eraseId =
        (parseTradeData rows hists cols rnd2).trades.map eraseId ∧
    (parseTradeData rows hists cols rnd1).positions.map erasePosIds =
        (parseTradeData rows hists cols rnd2).positions.map erasePosIds ∧
    ((∀ r ∈ rows, rowIdStr r ≠ none) →
      parseTradeData rows hists cols rnd1 = parseTradeData rows hists cols rnd2) := by
  have hC : (consolidateArgxTrades (parseTradeBlotter rows rnd1)).map eraseId =
      (consolidateArgxTrades (parseTradeBlotter rows rnd2)).map eraseId :=
    consolidateArgxTrades_congr _ _ (parseTradeBlotter_eraseId rows rnd1 rnd2)
  have hdates : (consolidateArgxTrades (parseTradeBlotter rows rnd1)).map
        (fun t => t.tradeDate) =
      (consolidateArgxTrades (parseTradeBlotter rows rnd2)).map
        (fun t => t.tradeDate) := by
    have h2 := congrArg (List.map (fun t : Trade => t.tradeDate)) hC
    rw [List.map_map, List.map_map] at h2
    exact h2
  have hsim : simulatePortfolio
        (buildTimeline ((consolidateArgxTrades (parseTradeBlotter rows rnd1)).map
          (fun t => t.tradeDate)) (parseHistorySheet hists cols).historyDates)
        (consolidateArgxTrades (parseTradeBlotter rows rnd1))
        (parseHistorySheet hists cols).dailyPriceMap
        (parseHistorySheet hists cols).dailyAumMap =
      simulatePortfolio
        (buildTimeline ((consolidateArgxTrades (parseTradeBlotter rows rnd2)).map
          (fun t => t.tradeDate)) (parseHistorySheet hists cols).historyDates)
        (consolidateArgxTrades (parseTradeBlotter rows rnd2))
        (parseHistorySheet hists cols).dailyPriceMap
        (parseHistorySheet hists cols).dailyAumMap := by
    rw [hdates]
    rw [← simulatePortfolio_eraseId _
      (consolidateArgxTrades (parseTradeBlotter rows rnd1)) _ _]
    rw [hC]
    rw [simulatePortfolio_eraseId]
  refine ⟨?_, ?_, ?_, ?_⟩
  · rw [parseTradeData_portfolioHistory, parseTradeData_portfolioHistory, hsim]
  · rw [parseTradeData_trades, parseTradeData_trades]
    exact hC
  · rw [parseTradeData_positions, parseTradeData_positions,
      finalizePositions_map_erase, finalizePositions_map_erase, hsim, hC]
  · intro hids
    unfold parseTradeData
    rw [parseTradeBlotter_det rows rnd1 rnd2 hids]

theorem pipeline_idempotent_mod_ids_witness :
    (∀ r ∈ [cashRow], rowIdStr r ≠ none) ∧
    parseTradeData [cashRow] [] allCols (fun _ => "x") =
      parseTradeData [cashRow] [] allCols (fun _ => "y") :=
  ⟨by decide, (pipeline_idempotent_mod_ids [cashRow] [] allCols (fun _ => "x")
    (fun _ => "y")).2.2.2 (by decide)⟩

end TradeViz
